import Mathlib

/-!
Verification development for the iwcore secrets-vault library.

The Rust sources are embedded shallowly:

* Byte strings (`&[u8]`, `Vec<u8>`) are `List Nat` with values below 256.
* Rust `&str` / `String` values are represented by their UTF-8 byte
  sequences (`List Nat`); validity of UTF-8 is the executable predicate
  `isValidUtf8`, mirroring `String::from_utf8`.  Passwords are represented
  by their character (code-point) sequences, because `prepare_key`
  (src/crypto/key.rs) measures and truncates the password in *characters*
  before encoding it to UTF-8 bytes.
* The external crates `aes` (the AES-256 block permutation) and `md5`
  (the raw 16-byte digest) are not part of this repository; they are
  abstracted as the fields of `CryptoPrims`, constrained by
  `CryptoPrims.Sound` (digest length 16; the block cipher is a
  length-preserving permutation for each key).  Everything built on top of
  them — key derivation, the MD5-hex envelope, CBC chaining with the fixed
  zero IV, PKCS7 padding, the iOS first-key-byte fallback — is transcribed
  from src/crypto/{key.rs, md5.rs, aes.rs}.
-/

/-! ## Byte-level helpers -/

/-- XOR of two byte strings, pointwise (used by CBC chaining). -/
def xorBytes (a b : List Nat) : List Nat := List.zipWith Nat.xor a b

/-- Fuel-driven block splitter; each step consumes at least one byte, so a
fuel of the list length is always enough (`toBlocksFuel_congr_aux`). -/
def toBlocksFuel : Nat → List Nat → List (List Nat)
  | _, [] => []
  | 0, _ :: _ => []
  | fuel + 1, b :: rest => (b :: rest).take 16 :: toBlocksFuel fuel ((b :: rest).drop 16)

/-- Split a byte string into consecutive 16-byte blocks (the AES block size).
The final block may be short when the input length is not a multiple of 16. -/
def toBlocks (l : List Nat) : List (List Nat) := toBlocksFuel l.length l

/-- The fixed all-zero initialisation vector (`ZERO_IV` in src/crypto/aes.rs). -/
def zeroIV : List Nat := List.replicate 16 0

/-! ## External crypto primitives (the `aes` and `md5` crates) -/

/-- Abstract interface for the two external crates used by src/crypto:
the raw MD5 digest and the AES-256 block permutation (keyed, one block). -/
structure CryptoPrims where
  md5digest : List Nat → List Nat
  aesEncBlock : List Nat → List Nat → List Nat
  aesDecBlock : List Nat → List Nat → List Nat

/-- The contract the external crates satisfy: MD5 digests are 16 bytes and
the AES block cipher is a length-preserving permutation for every key. -/
def CryptoPrims.Sound (P : CryptoPrims) : Prop :=
  (∀ m, (P.md5digest m).length = 16) ∧
  (∀ k b, b.length = 16 → (P.aesEncBlock k b).length = 16) ∧
  (∀ k b, b.length = 16 → P.aesDecBlock k (P.aesEncBlock k b) = b)

/-- ASCII code of the lower-case hex digit for `n` (format `{:02x}`). -/
def hexDigitByte (n : Nat) : Nat := if n < 10 then 48 + n else 87 + n

/-- The two lower-case hex digits of one byte (format `{:02x}` in
src/crypto/md5.rs). -/
def toHexPair (b : Nat) : List Nat := [hexDigitByte (b / 16 % 16), hexDigitByte (b % 16)]

/-- `md5_hex` from src/crypto/md5.rs: the 32-character lower-case hex string
of the MD5 digest, as ASCII bytes. -/
def md5hexBytes (P : CryptoPrims) (input : List Nat) : List Nat :=
  (P.md5digest input).flatMap toHexPair

/-! ## Key derivation (src/crypto/key.rs) -/

/-- `KEY_LENGTH` from src/crypto/key.rs. -/
def KEY_LENGTH : Nat := 32

/-- The password-doubling loop of `derive_key_from_password`:
`while padded.chars().count() < 32 { padded.push_str(password) }`.
The loop is modelled with fuel; 32 rounds are enough for every non-empty
password (for the empty password the Rust loop diverges). -/
def padLoop (pw : List Nat) : List Nat → Nat → List Nat
  | acc, 0 => acc
  | acc, n + 1 => if acc.length < 32 then padLoop pw (acc ++ pw) n else acc

/-- UTF-8 encoding of one code point (`str::as_bytes` on the key string). -/
def utf8EncodeChar (c : Nat) : List Nat :=
  if c < 0x80 then [c]
  else if c < 0x800 then [0xC0 + c / 64, 0x80 + c % 64]
  else if c < 0x10000 then [0xE0 + c / 4096, 0x80 + c / 64 % 64, 0x80 + c % 64]
  else [0xF0 + c / 262144, 0x80 + c / 4096 % 64, 0x80 + c / 64 % 64, 0x80 + c % 64]

/-- UTF-8 encoding of a code-point sequence. -/
def utf8Encode (s : List Nat) : List Nat := s.flatMap utf8EncodeChar

/-- `apply_md5_iterations` from src/crypto/key.rs, at the byte level: each
round replaces the string by its 32-character hex MD5 (whose UTF-8 bytes are
its ASCII bytes). -/
def applyMd5Iterations (P : CryptoPrims) (b : List Nat) : Nat → List Nat
  | 0 => b
  | n + 1 => applyMd5Iterations P (md5hexBytes P b) n

/-- `derive_key_from_password` from src/crypto/key.rs: double the password to
at least 32 characters, truncate to 32 characters, then apply `count` MD5
iterations if `count > 0`.  The result is the UTF-8 byte string. -/
def derive_key_from_password (P : CryptoPrims) (password : List Nat) (count : Nat) : List Nat :=
  let padded := padLoop password password 32
  let truncated := padded.take 32
  if count > 0 then applyMd5Iterations P (utf8Encode truncated) count
  else utf8Encode truncated

/-- `prepare_key` from src/crypto/key.rs: optionally use a supplied hash,
then zero-pad or truncate the UTF-8 bytes to exactly 32 bytes. -/
def prepare_key (P : CryptoPrims) (password : List Nat) (hash : Option (List Nat))
    (count : Nat) : List Nat :=
  let keyBytes :=
    match hash with
    | some h => if ¬h.isEmpty ∧ count > 0 then h
                else derive_key_from_password P password count
    | none => derive_key_from_password P password count
  keyBytes.take KEY_LENGTH ++ List.replicate (KEY_LENGTH - keyBytes.length) 0

/-! ## CBC mode with PKCS7 padding (the `cbc` / `block-padding` crates as
used by src/crypto/aes.rs) -/

/-- CBC encryption over a block list: each plaintext block is XORed with the
previous ciphertext block (initially the IV) and then enciphered. -/
def cbcEncBlocks (enc : List Nat → List Nat) : List Nat → List (List Nat) → List (List Nat)
  | _, [] => []
  | prev, b :: bs =>
    let c := enc (xorBytes b prev)
    c :: cbcEncBlocks enc c bs

/-- CBC decryption over a block list. -/
def cbcDecBlocks (dec : List Nat → List Nat) : List Nat → List (List Nat) → List (List Nat)
  | _, [] => []
  | prev, c :: cs => xorBytes (dec c) prev :: cbcDecBlocks dec c cs

/-- CBC-encrypt a byte string (length a multiple of 16) under the zero IV. -/
def cbcEncryptBytes (P : CryptoPrims) (key data : List Nat) : List Nat :=
  (cbcEncBlocks (P.aesEncBlock key) zeroIV (toBlocks data)).flatten

/-- CBC-decrypt a byte string under the zero IV. -/
def cbcDecryptBytes (P : CryptoPrims) (key ct : List Nat) : List Nat :=
  (cbcDecBlocks (P.aesDecBlock key) zeroIV (toBlocks ct)).flatten

/-- PKCS7 padding to the next multiple of 16: `16 - len % 16` copies of that
same value are appended (a whole block when the input is already aligned),
exactly the sizing `((data.len() / 16) + 1) * 16` used in src/crypto/aes.rs. -/
def pkcs7pad (data : List Nat) : List Nat :=
  data ++ List.replicate (16 - data.length % 16) (16 - data.length % 16)

/-- PKCS7 unpadding: the last byte names the padding width `n` (1..=16) and
the last `n` bytes must all equal `n`. -/
def pkcs7unpad (pt : List Nat) : Option (List Nat) :=
  if pt.getLastD 0 = 0 ∨ 16 < pt.getLastD 0 then none
  else if pt.drop (pt.length - pt.getLastD 0) = List.replicate (pt.getLastD 0) (pt.getLastD 0)
    then some (pt.take (pt.length - pt.getLastD 0))
  else none

/-! ## UTF-8 validation (`String::from_utf8`) -/

/-- Continuation byte test (0x80..=0xBF). -/
def isContByte (c : Nat) : Bool := 0x80 ≤ c ∧ c ≤ 0xBF

/-- Admissible second byte of a three-byte sequence (the lead bytes 0xE0 and
0xED restrict it to exclude overlong encodings and surrogates). -/
def utf8Lead3Ok (b c1 : Nat) : Bool :=
  if b = 0xE0 then 0xA0 ≤ c1 ∧ c1 ≤ 0xBF
  else if b = 0xED then 0x80 ≤ c1 ∧ c1 ≤ 0x9F
  else isContByte c1

/-- Admissible second byte of a four-byte sequence (the lead bytes 0xF0 and
0xF4 restrict it to exclude overlong encodings and values above U+10FFFF). -/
def utf8Lead4Ok (b c1 : Nat) : Bool :=
  if b = 0xF0 then 0x90 ≤ c1 ∧ c1 ≤ 0xBF
  else if b = 0xF4 then 0x80 ≤ c1 ∧ c1 ≤ 0x8F
  else isContByte c1

/-- Consume one UTF-8 scalar from the front of the byte string, returning
the remainder, or `none` if the front is not a valid encoded scalar. -/
def utf8DecodeStep : List Nat → Option (List Nat)
  | [] => none
  | b :: rest =>
    if b < 0x80 then some rest
    else if b < 0xC2 then none
    else if b ≤ 0xDF then
      if rest.length < 1 then none
      else if isContByte (rest.getD 0 0) then some (rest.drop 1) else none
    else if b ≤ 0xEF then
      if rest.length < 2 then none
      else if utf8Lead3Ok b (rest.getD 0 0) && isContByte (rest.getD 1 0)
        then some (rest.drop 2) else none
    else if b ≤ 0xF4 then
      if rest.length < 3 then none
      else if utf8Lead4Ok b (rest.getD 0 0) && isContByte (rest.getD 1 0)
          && isContByte (rest.getD 2 0)
        then some (rest.drop 3) else none
    else none

/-- Fuel-driven validation loop; each step consumes at least one byte, so a
fuel of the list length is always enough (`isValidUtf8Fuel_congr`). -/
def isValidUtf8Fuel : Nat → List Nat → Bool
  | _, [] => true
  | 0, _ :: _ => false
  | fuel + 1, b :: rest =>
    match utf8DecodeStep (b :: rest) with
    | some r => isValidUtf8Fuel fuel r
    | none => false

/-- Strict UTF-8 validity of a byte string, as checked by
`String::from_utf8` (overlong encodings, surrogates and values above
U+10FFFF are rejected). -/
def isValidUtf8 (l : List Nat) : Bool := isValidUtf8Fuel l.length l

/-! ## The encryption envelope (src/crypto/aes.rs) -/

/-- `encrypt` from src/crypto/aes.rs: prepend the 32-character hex MD5 of the
plaintext, PKCS7-pad, and AES-256-CBC-encrypt under the zero IV.  (The Rust
error branch is unreachable: the buffer is always sized for the padding, so
the function is modelled as total.) -/
def encrypt (P : CryptoPrims) (plaintext password : List Nat) (count : Nat)
    (hash : Option (List Nat)) : List Nat :=
  cbcEncryptBytes P (prepare_key P password hash count)
    (pkcs7pad (md5hexBytes P plaintext ++ plaintext))

/-- `decrypt_with_key` from src/crypto/aes.rs: CBC-decrypt, PKCS7-unpad,
UTF-8-decode, split off the 32-character checksum and verify it. -/
def decrypt_with_key (P : CryptoPrims) (ciphertext key : List Nat) : Except String (List Nat) :=
  if ciphertext = [] then .error "Empty ciphertext"
  else if ciphertext.length % 16 ≠ 0 then .error "Decryption failed"
  else
    match pkcs7unpad (cbcDecryptBytes P key ciphertext) with
    | none => .error "Decryption failed"
    | some bytes =>
      if ¬isValidUtf8 bytes then .error "Invalid UTF-8"
      else if bytes.length < 32 then .error "Decrypted text too short"
      else if bytes.take 32 = md5hexBytes P (bytes.drop 32) then .ok (bytes.drop 32)
      else .error "MD5 checksum mismatch"

/-- Zero the first key byte (the historical iOS defect replayed by the
decryption fallback). -/
def zeroFirstByte : List Nat → List Nat
  | [] => []
  | _ :: t => 0 :: t

/-- `decrypt` from src/crypto/aes.rs: try the derived key, and on any failure
retry once with the first key byte forced to zero. -/
def decrypt (P : CryptoPrims) (ciphertext password : List Nat) (count : Nat)
    (hash : Option (List Nat)) : Except String (List Nat) :=
  match decrypt_with_key P ciphertext (prepare_key P password hash count) with
  | .ok plaintext => .ok plaintext
  | .error _ =>
    decrypt_with_key P ciphertext (zeroFirstByte (prepare_key P password hash count))

/-! ## Basic lemmas about the byte-level helpers -/

theorem xorBytes_length (a b : List Nat) : (xorBytes a b).length = min a.length b.length := by
  simp [xorBytes]

theorem xorBytes_xorBytes_cancel (b p : List Nat) (h : b.length ≤ p.length) :
    xorBytes (xorBytes b p) p = b := by
  induction b generalizing p with
  | nil => simp [xorBytes]
  | cons x xs ih =>
    cases p with
    | nil => simp at h
    | cons y ys =>
      have hle : xs.length ≤ ys.length := by
        simp only [List.length_cons] at h; omega
      simp only [xorBytes, List.zipWith_cons_cons]
      refine congrArg₂ List.cons ?_ (ih ys hle)
      show x ^^^ y ^^^ y = x
      rw [Nat.xor_assoc, Nat.xor_self, Nat.xor_zero]

theorem toBlocksFuel_nil (f : Nat) : toBlocksFuel f [] = [] := by
  cases f <;> rfl

theorem toBlocksFuel_congr_aux (n : Nat) : ∀ (f g : Nat) (l : List Nat),
    l.length ≤ n → l.length ≤ f → l.length ≤ g →
    toBlocksFuel f l = toBlocksFuel g l := by
  induction n with
  | zero =>
    intro f g l hn _ _
    have : l = [] := List.length_eq_zero.mp (Nat.le_zero.mp hn)
    subst this
    rw [toBlocksFuel_nil, toBlocksFuel_nil]
  | succ n ih =>
    intro f g l hn hf hg
    cases l with
    | nil => rw [toBlocksFuel_nil, toBlocksFuel_nil]
    | cons b rest =>
      cases f with
      | zero => simp at hf
      | succ f1 =>
        cases g with
        | zero => simp at hg
        | succ g1 =>
          show (b :: rest).take 16 :: toBlocksFuel f1 ((b :: rest).drop 16)
            = (b :: rest).take 16 :: toBlocksFuel g1 ((b :: rest).drop 16)
          refine congrArg _ ?_
          apply ih f1 g1
          all_goals simp only [List.length_drop, List.length_cons] at *
          all_goals omega

theorem toBlocks_nil : toBlocks [] = [] := rfl

theorem toBlocks_cons (l : List Nat) (h : l ≠ []) :
    toBlocks l = l.take 16 :: toBlocks (l.drop 16) := by
  cases l with
  | nil => exact absurd rfl h
  | cons b rest =>
    show (b :: rest).take 16 :: toBlocksFuel rest.length ((b :: rest).drop 16)
      = (b :: rest).take 16 :: toBlocksFuel ((b :: rest).drop 16).length ((b :: rest).drop 16)
    refine congrArg _ ?_
    apply toBlocksFuel_congr_aux ((b :: rest).drop 16).length
    · exact Nat.le_refl _
    · simp only [List.length_drop, List.length_cons]
      omega
    · exact Nat.le_refl _

theorem flatten_toBlocks (l : List Nat) : (toBlocks l).flatten = l := by
  by_cases h : l = []
  · subst h; simp [toBlocks_nil]
  · rw [toBlocks_cons l h]
    have ih := flatten_toBlocks (l.drop 16)
    simp [ih]
termination_by l.length
decreasing_by
  have hpos : 0 < l.length := List.length_pos.mpr h
  simp only [List.length_drop]
  omega

theorem toBlocks_block_length (l : List Nat) (hl : l.length % 16 = 0) :
    ∀ b ∈ toBlocks l, b.length = 16 := by
  by_cases h : l = []
  · subst h; simp [toBlocks_nil]
  · rw [toBlocks_cons l h]
    intro b hb
    have hpos : 0 < l.length := List.length_pos.mpr h
    have h16 : 16 ≤ l.length := by omega
    rcases List.mem_cons.mp hb with rfl | hb'
    · simp [List.length_take]; omega
    · have hdl : (l.drop 16).length % 16 = 0 := by
        simp only [List.length_drop]; omega
      exact toBlocks_block_length (l.drop 16) hdl b hb'
termination_by l.length
decreasing_by
  have hpos : 0 < l.length := List.length_pos.mpr h
  simp only [List.length_drop]
  omega

theorem flatten_length_uniform (bs : List (List Nat)) (h : ∀ b ∈ bs, b.length = 16) :
    bs.flatten.length = 16 * bs.length := by
  induction bs with
  | nil => simp
  | cons b t ih =>
    simp only [List.flatten_cons, List.length_append, List.length_cons,
      h b (List.mem_cons_self b t), ih (fun x hx => h x (List.mem_cons_of_mem b hx))]
    ring

theorem toBlocks_flatten_uniform (bs : List (List Nat)) (h : ∀ b ∈ bs, b.length = 16) :
    toBlocks bs.flatten = bs := by
  induction bs with
  | nil => simp [toBlocks_nil]
  | cons b t ih =>
    have hb : b.length = 16 := h b (List.mem_cons_self b t)
    have hne : b ++ t.flatten ≠ [] := by
      intro hcontra
      have : b = [] := List.append_eq_nil.mp hcontra |>.1
      simp [this] at hb
    rw [List.flatten_cons, toBlocks_cons _ hne]
    have htake : (b ++ t.flatten).take 16 = b := by
      rw [← hb]; exact List.take_left b t.flatten
    have hdrop : (b ++ t.flatten).drop 16 = t.flatten := by
      rw [← hb]; exact List.drop_left b t.flatten
    rw [htake, hdrop, ih (fun x hx => h x (List.mem_cons_of_mem b hx))]

theorem cbcEncBlocks_length (enc : List Nat → List Nat) (prev : List Nat)
    (bs : List (List Nat)) : (cbcEncBlocks enc prev bs).length = bs.length := by
  induction bs generalizing prev with
  | nil => simp [cbcEncBlocks]
  | cons b t ih => simp [cbcEncBlocks, ih]

theorem cbcEncBlocks_mem_length (enc : List Nat → List Nat)
    (henc : ∀ b, b.length = 16 → (enc b).length = 16)
    (prev : List Nat) (bs : List (List Nat)) (hprev : prev.length = 16)
    (hbs : ∀ b ∈ bs, b.length = 16) :
    ∀ c ∈ cbcEncBlocks enc prev bs, c.length = 16 := by
  induction bs generalizing prev with
  | nil => simp [cbcEncBlocks]
  | cons b t ih =>
    intro c hc
    have hb : b.length = 16 := hbs b (List.mem_cons_self b t)
    have hxor : (xorBytes b prev).length = 16 := by
      rw [xorBytes_length, hb, hprev]; rfl
    have hcblk : (enc (xorBytes b prev)).length = 16 := henc _ hxor
    simp only [cbcEncBlocks] at hc
    rcases List.mem_cons.mp hc with rfl | hc'
    · exact hcblk
    · exact ih (enc (xorBytes b prev)) hcblk
        (fun x hx => hbs x (List.mem_cons_of_mem b hx)) c hc'

theorem cbcDecBlocks_cbcEncBlocks (enc dec : List Nat → List Nat)
    (henc : ∀ b, b.length = 16 → (enc b).length = 16)
    (hinv : ∀ b, b.length = 16 → dec (enc b) = b)
    (prev : List Nat) (bs : List (List Nat)) (hprev : prev.length = 16)
    (hbs : ∀ b ∈ bs, b.length = 16) :
    cbcDecBlocks dec prev (cbcEncBlocks enc prev bs) = bs := by
  induction bs generalizing prev with
  | nil => simp [cbcEncBlocks, cbcDecBlocks]
  | cons b t ih =>
    have hb : b.length = 16 := hbs b (List.mem_cons_self b t)
    have hxor : (xorBytes b prev).length = 16 := by
      rw [xorBytes_length, hb, hprev]; rfl
    simp only [cbcEncBlocks, cbcDecBlocks]
    refine congrArg₂ List.cons ?_ ?_
    · rw [hinv _ hxor]
      exact xorBytes_xorBytes_cancel b prev (by omega)
    · exact ih (enc (xorBytes b prev)) (henc _ hxor)
        (fun x hx => hbs x (List.mem_cons_of_mem b hx))

theorem pkcs7pad_length (d : List Nat) :
    (pkcs7pad d).length = d.length + (16 - d.length % 16) := by
  simp [pkcs7pad]

theorem pkcs7pad_mod (d : List Nat) : (pkcs7pad d).length % 16 = 0 := by
  rw [pkcs7pad_length]
  omega

theorem pkcs7pad_ne_nil (d : List Nat) : pkcs7pad d ≠ [] := by
  intro h
  have := congrArg List.length h
  rw [pkcs7pad_length] at this
  simp at this
  omega

theorem pkcs7unpad_append_replicate (d : List Nat) (m : Nat) (h1 : 1 ≤ m) (h16 : m ≤ 16) :
    pkcs7unpad (d ++ List.replicate m m) = some d := by
  obtain ⟨k, rfl⟩ : ∃ k, m = k + 1 := ⟨m - 1, by omega⟩
  have hlast : (d ++ List.replicate (k + 1) (k + 1)).getLastD 0 = k + 1 := by
    rw [List.getLastD_eq_getLast?, List.replicate_succ', ← List.append_assoc,
      List.getLast?_concat]
    rfl
  have hlen : (d ++ List.replicate (k + 1) (k + 1)).length - (k + 1) = d.length := by
    simp
  rw [pkcs7unpad, hlast, if_neg (by omega : ¬(k + 1 = 0 ∨ 16 < k + 1)), hlen,
    List.drop_left, if_pos rfl, List.take_left]

theorem pkcs7unpad_pkcs7pad (d : List Nat) : pkcs7unpad (pkcs7pad d) = some d := by
  rw [pkcs7pad]
  exact pkcs7unpad_append_replicate d _ (by omega) (by omega)

theorem flatMap_toHexPair_length (d : List Nat) :
    (d.flatMap toHexPair).length = 2 * d.length := by
  induction d with
  | nil => simp
  | cons b t ih => simp [toHexPair, ih]; ring

theorem md5hexBytes_length (P : CryptoPrims) (hP : P.Sound) (m : List Nat) :
    (md5hexBytes P m).length = 32 := by
  rw [md5hexBytes, flatMap_toHexPair_length, hP.1 m]

theorem hexDigitByte_lt128 (n : Nat) (h : n < 16) : hexDigitByte n < 128 := by
  rw [hexDigitByte]
  split <;> omega

theorem md5hexBytes_lt128 (P : CryptoPrims) (m : List Nat) :
    ∀ x ∈ md5hexBytes P m, x < 128 := by
  intro x hx
  rw [md5hexBytes] at hx
  rcases List.mem_flatMap.mp hx with ⟨b, _, hxb⟩
  rcases List.mem_cons.mp hxb with rfl | hxb'
  · exact hexDigitByte_lt128 _ (Nat.mod_lt _ (by omega))
  · rcases List.mem_cons.mp hxb' with rfl | h'
    · exact hexDigitByte_lt128 _ (Nat.mod_lt _ (by omega))
    · simp at h'

theorem utf8DecodeStep_length (l r : List Nat) (h : utf8DecodeStep l = some r) :
    r.length < l.length := by
  cases l with
  | nil => simp [utf8DecodeStep] at h
  | cons b rest =>
    simp only [utf8DecodeStep] at h
    split_ifs at h <;> simp_all <;> subst h <;> simp [List.length_drop] <;> omega

theorem isValidUtf8Fuel_nil (f : Nat) : isValidUtf8Fuel f [] = true := by
  cases f <;> rfl

theorem isValidUtf8Fuel_congr_aux (n : Nat) : ∀ (f g : Nat) (l : List Nat),
    l.length ≤ n → l.length ≤ f → l.length ≤ g →
    isValidUtf8Fuel f l = isValidUtf8Fuel g l := by
  induction n with
  | zero =>
    intro f g l hn _ _
    have : l = [] := List.length_eq_zero.mp (Nat.le_zero.mp hn)
    subst this
    rw [isValidUtf8Fuel_nil, isValidUtf8Fuel_nil]
  | succ n ih =>
    intro f g l hn hf hg
    cases l with
    | nil => rw [isValidUtf8Fuel_nil, isValidUtf8Fuel_nil]
    | cons b rest =>
      cases f with
      | zero => simp at hf
      | succ f1 =>
        cases g with
        | zero => simp at hg
        | succ g1 =>
          simp only [isValidUtf8Fuel]
          cases hstep : utf8DecodeStep (b :: rest) with
          | none => rfl
          | some r =>
            have hr := utf8DecodeStep_length _ _ hstep
            simp only [List.length_cons] at hn hf hg hr
            exact ih f1 g1 r (by omega) (by omega) (by omega)

theorem isValidUtf8Fuel_congr (f g : Nat) (l : List Nat) (hf : l.length ≤ f)
    (hg : l.length ≤ g) : isValidUtf8Fuel f l = isValidUtf8Fuel g l :=
  isValidUtf8Fuel_congr_aux l.length f g l (Nat.le_refl _) hf hg

theorem isValidUtf8_cons_ascii (x : Nat) (hx : x < 128) (l : List Nat) :
    isValidUtf8 (x :: l) = isValidUtf8 l := by
  show isValidUtf8Fuel (x :: l).length (x :: l) = _
  simp only [List.length_cons]
  simp only [isValidUtf8Fuel]
  have hstep : utf8DecodeStep (x :: l) = some l := by
    simp only [utf8DecodeStep]
    rw [if_pos hx]
  rw [hstep]
  rfl

theorem isValidUtf8_ascii_append (a p : List Nat) (ha : ∀ x ∈ a, x < 128) :
    isValidUtf8 (a ++ p) = isValidUtf8 p := by
  induction a with
  | nil => simp
  | cons x xs ih =>
    have hx : x < 128 := ha x (List.mem_cons_self x xs)
    show isValidUtf8 (x :: (xs ++ p)) = isValidUtf8 p
    rw [isValidUtf8_cons_ascii x hx]
    exact ih (fun y hy => ha y (List.mem_cons_of_mem x hy))

/-! ## Round-trip of the envelope -/

theorem decrypt_with_key_encrypt (P : CryptoPrims) (hP : P.Sound)
    (p key : List Nat) (hvalid : isValidUtf8 p = true) :
    decrypt_with_key P (cbcEncryptBytes P key (pkcs7pad (md5hexBytes P p ++ p))) key
      = .ok p := by
  have hhexlen : (md5hexBytes P p).length = 32 := md5hexBytes_length P hP p
  set full := md5hexBytes P p ++ p with hfulldef
  have hfulllen : full.length = 32 + p.length := by
    rw [hfulldef, List.length_append, hhexlen]
  set padded := pkcs7pad full with hpaddeddef
  have hpmod : padded.length % 16 = 0 := pkcs7pad_mod full
  have hpne : padded ≠ [] := pkcs7pad_ne_nil full
  have hblocks : ∀ b ∈ toBlocks padded, b.length = 16 := toBlocks_block_length padded hpmod
  set eblocks := cbcEncBlocks (P.aesEncBlock key) zeroIV (toBlocks padded) with hebdef
  have hIV : zeroIV.length = 16 := by simp [zeroIV]
  have heblen : ∀ c ∈ eblocks, c.length = 16 := by
    rw [hebdef]
    exact cbcEncBlocks_mem_length _ (fun b hb => hP.2.1 key b hb) _ _ hIV hblocks
  have hct : cbcEncryptBytes P key padded = eblocks.flatten := by
    rw [cbcEncryptBytes, hebdef]
  have hctlen : eblocks.flatten.length = 16 * eblocks.length :=
    flatten_length_uniform eblocks heblen
  have hcount : eblocks.length = (toBlocks padded).length := by
    rw [hebdef]; exact cbcEncBlocks_length _ _ _
  have hbpos : (toBlocks padded).length ≠ 0 := by
    intro hzero
    have hnilb : toBlocks padded = [] := List.length_eq_zero.mp hzero
    apply hpne
    rw [← flatten_toBlocks padded, hnilb]
    rfl
  have hctne : eblocks.flatten ≠ [] := by
    intro hcon
    have hlen0 : eblocks.flatten.length = 0 := by rw [hcon]; rfl
    rw [hctlen, hcount] at hlen0
    omega
  have hctmod : ¬(eblocks.flatten.length % 16 ≠ 0) := by
    rw [hctlen]; omega
  have hdecbytes : cbcDecryptBytes P key eblocks.flatten = padded := by
    rw [cbcDecryptBytes, toBlocks_flatten_uniform eblocks heblen, hebdef,
      cbcDecBlocks_cbcEncBlocks (P.aesEncBlock key) (P.aesDecBlock key)
        (fun b hb => hP.2.1 key b hb) (fun b hb => hP.2.2 key b hb) zeroIV
        (toBlocks padded) hIV hblocks,
      flatten_toBlocks]
  have hunpad : pkcs7unpad padded = some full := pkcs7unpad_pkcs7pad full
  have hvalidfull : isValidUtf8 full = true := by
    rw [hfulldef, isValidUtf8_ascii_append _ _ (md5hexBytes_lt128 P p)]
    exact hvalid
  have htake : full.take 32 = md5hexBytes P p := by
    rw [hfulldef, ← hhexlen]
    exact List.take_left _ _
  have hdrop : full.drop 32 = p := by
    rw [hfulldef, ← hhexlen]
    exact List.drop_left _ _
  rw [hct, decrypt_with_key, if_neg hctne, if_neg hctmod, hdecbytes]
  split
  next heq => rw [hunpad] at heq; cases heq
  next bytes heq =>
    rw [hunpad] at heq
    injection heq with hb
    subst hb
    rw [if_neg (not_not_intro hvalidfull), if_neg (by omega : ¬full.length < 32),
      hdrop, htake, if_pos rfl]

/-- C1: for every plaintext string `p` (any valid UTF-8 byte sequence,
including the empty string and non-ASCII text), every password `pw` and
every iteration count `c`, decrypting the result of encrypting `p` under
`(pw, c)` with the same `(pw, c)` returns exactly `p`.  The hypothesis
`pw ≠ []` records that the Rust key-derivation loop only terminates for
non-empty passwords. -/
theorem decrypt_encrypt_roundtrip (P : CryptoPrims) (hP : P.Sound)
    (p pw : List Nat) (c : Nat) (hvalid : isValidUtf8 p = true) (hpw : pw ≠ []) :
    decrypt P (encrypt P p pw c none) pw c none = .ok p := by
  have hok := decrypt_with_key_encrypt P hP p (prepare_key P pw none c) hvalid
  rw [decrypt, encrypt, hok]

/-- Concrete primitives standing in for the external crates in witnesses:
a constant digest and the identity block permutation. -/
def idPrims : CryptoPrims :=
  ⟨fun _ => List.replicate 16 0, fun _ b => b, fun _ b => b⟩

theorem idPrims_sound : idPrims.Sound :=
  ⟨fun _ => by simp [idPrims], fun _ _ h => h, fun _ _ _ => rfl⟩

/-- C1 witness: the round trip at a Cyrillic plaintext (the UTF-8 bytes of
a two-byte scalar) and at the empty plaintext, under concrete inputs. -/
theorem decrypt_encrypt_roundtrip_witness :
    decrypt idPrims (encrypt idPrims [208, 159] [83, 117, 110] 0 none) [83, 117, 110] 0 none
        = .ok [208, 159] ∧
      decrypt idPrims (encrypt idPrims [] [84] 2 none) [84] 2 none = .ok [] :=
  ⟨decrypt_encrypt_roundtrip idPrims idPrims_sound [208, 159] [83, 117, 110] 0
      (by decide) (by decide),
    decrypt_encrypt_roundtrip idPrims idPrims_sound [] [84] 2 (by decide) (by decide)⟩

/-- C7: the ciphertext length is `round_up(32 + len(utf8(p)) + 1, 16)`, i.e.
a full padding block is appended when `32 + len(utf8(p))` is already a
multiple of 16, so the ciphertext is always strictly longer than the
MD5-prefixed plaintext. -/
theorem encrypt_output_length (P : CryptoPrims) (hP : P.Sound) (p pw : List Nat)
    (c : Nat) (hash : Option (List Nat)) (hpw : pw ≠ []) :
    (encrypt P p pw c hash).length = ((32 + p.length) / 16 + 1) * 16 ∧
      (encrypt P p pw c hash).length = (32 + p.length + 1 + 15) / 16 * 16 ∧
      32 + p.length < (encrypt P p pw c hash).length := by
  have hhexlen : (md5hexBytes P p).length = 32 := md5hexBytes_length P hP p
  set key := prepare_key P pw hash c with hkeydef
  set full := md5hexBytes P p ++ p with hfulldef
  have hfulllen : full.length = 32 + p.length := by
    rw [hfulldef, List.length_append, hhexlen]
  set padded := pkcs7pad full with hpaddeddef
  have hpmod : padded.length % 16 = 0 := pkcs7pad_mod full
  have hblocks : ∀ b ∈ toBlocks padded, b.length = 16 := toBlocks_block_length padded hpmod
  set eblocks := cbcEncBlocks (P.aesEncBlock key) zeroIV (toBlocks padded) with hebdef
  have hIV : zeroIV.length = 16 := by simp [zeroIV]
  have heblen : ∀ cOut ∈ eblocks, cOut.length = 16 := by
    rw [hebdef]
    exact cbcEncBlocks_mem_length _ (fun b hb => hP.2.1 key b hb) _ _ hIV hblocks
  have hlen : (encrypt P p pw c hash).length = padded.length := by
    calc (encrypt P p pw c hash).length
        = eblocks.flatten.length := by rw [encrypt, cbcEncryptBytes, hebdef]
      _ = 16 * eblocks.length := flatten_length_uniform eblocks heblen
      _ = 16 * (toBlocks padded).length := by rw [hebdef, cbcEncBlocks_length]
      _ = (toBlocks padded).flatten.length := (flatten_length_uniform _ hblocks).symm
      _ = padded.length := by rw [flatten_toBlocks]
  have hplen : padded.length = full.length + (16 - full.length % 16) := pkcs7pad_length full
  rw [hlen, hplen, hfulllen]
  omega

/-- C7 witness: the length law at concrete inputs, including a plaintext for
which `32 + len` is already block-aligned (length 16). -/
theorem encrypt_output_length_witness :
    (encrypt idPrims (List.replicate 16 65) [83] 0 none).length
        = ((32 + 16) / 16 + 1) * 16 ∧
      (encrypt idPrims (List.replicate 16 65) [83] 0 none).length
        = (32 + 16 + 1 + 15) / 16 * 16 ∧
      32 + 16 < (encrypt idPrims (List.replicate 16 65) [83] 0 none).length := by
  have h := encrypt_output_length idPrims idPrims_sound (List.replicate 16 65) [83]
    0 none (by decide)
  simpa using h

/-! ## Data model (src/database/schema.rs, src/database/queries.rs)

Rows are modelled as records; tables as lists in insertion order (a SQL
scan without ORDER BY is modelled as scanning the list front to back).
Timestamp columns and the WAL checkpoints issued after each statement do
not affect any verified claim and are omitted.  `item_id`/`field_id`
generation is random (src/utils/id_gen.rs); generated ids are passed in as
parameters. -/

/-- `ROOT_ID` from src/lib.rs. -/
def ROOT_ID : String := "__ROOT__"

/-- `ROOT_PARENT_ID` from src/lib.rs. -/
def ROOT_PARENT_ID : String := "________"

/-- `DB_VERSION` from src/lib.rs (the version stamped into fresh wallets). -/
def DB_VERSION : String := "4"

/-- `CURRENT_VERSION` from src/database/migrations.rs (the newest schema
version the migration chain produces). -/
def CURRENT_VERSION : String := "5"

/-- `ENCRYPTION_COUNT_DEFAULT` from src/lib.rs. -/
def ENCRYPTION_COUNT_DEFAULT : Nat := 200

/-- One row of `nswallet_properties` (the legacy `email` column stores the
encryption count as text). -/
structure PropsRow where
  database_id : String
  lang : String
  version : String
  email : String
deriving Repr, DecidableEq

/-- One row of `nswallet_items` (`name` is ciphertext). -/
structure ItemRow where
  item_id : String
  parent_id : Option String
  name : List Nat
  icon : String
  folder : Bool
  deleted : Bool
deriving Repr, DecidableEq

/-- One row of `nswallet_fields` (`value` is ciphertext; composite primary
key `(item_id, field_id)`). -/
structure FieldRow where
  item_id : String
  field_id : String
  field_type : String
  value : List Nat
  sort_weight : Option Int
  deleted : Bool
deriving Repr, DecidableEq

/-- One row of `nswallet_labels`. -/
structure LabelRow where
  field_type : String
  label_name : String
  value_type : String
  icon : String
  system : Bool
  deleted : Bool
deriving Repr, DecidableEq

/-- The relational store (the icons and groups tables carry no behaviour
relevant to the claims and are omitted). -/
structure DB where
  props : List PropsRow
  items : List ItemRow
  fields : List FieldRow
  labels : List LabelRow
deriving Repr, DecidableEq

/-- A freshly created database (`Database::create` runs only the CREATE
TABLE statements). -/
def emptyDB : DB := ⟨[], [], [], []⟩

/-! ### Queries (src/database/queries.rs) -/

/-- Decimal rendering of a natural number (`u32::to_string`). -/
def natToString (n : Nat) : String := ⟨Nat.toDigits 10 n⟩

/-- `str::parse::<u32>` on its success domain: a non-empty all-digit string
parses to its decimal value, anything else fails. -/
def parseNat? (s : String) : Option Nat :=
  if s.data ≠ [] ∧ s.data.all (fun c => c.isDigit) then
    some (s.data.foldl (fun acc c => acc * 10 + (c.toNat - 48)) 0)
  else none

/-- `set_properties`: INSERT a properties row; the encryption count is
stored as text in the legacy `email` column. -/
def set_properties (db : DB) (database_id lang version : String)
    (encryption_count : Nat) : DB :=
  { db with props := db.props ++ [⟨database_id, lang, version, natToString encryption_count⟩] }

/-- `get_properties`: the first row of the properties table. -/
def db_get_properties (db : DB) : Option PropsRow := db.props.head?

/-- `create_item`: INSERT an item row with `deleted = 0`. -/
def create_item (db : DB) (item_id parent_id : String) (name_encrypted : List Nat)
    (icon : String) (folder : Bool) : DB :=
  { db with items := db.items ++ [⟨item_id, some parent_id, name_encrypted, icon, folder, false⟩] }

/-- `create_field`: INSERT a field row with `deleted = 0`. -/
def create_field (db : DB) (item_id field_id field_type : String)
    (value_encrypted : List Nat) (sort_weight : Int) : DB :=
  { db with fields := db.fields ++
      [⟨item_id, field_id, field_type, value_encrypted, some sort_weight, false⟩] }

/-- `create_label`: INSERT OR IGNORE on the primary key `field_type`;
returns whether a row was inserted. -/
def create_label (db : DB) (field_type label_name value_type icon : String)
    (system : Bool) : DB × Bool :=
  if db.labels.any (fun l => l.field_type = field_type) then (db, false)
  else ({ db with labels := db.labels ++
      [⟨field_type, label_name, value_type, icon, system, false⟩] }, true)

/-- `get_field_raw_by_id`: the first non-deleted field row with the given
`field_id`. -/
def get_field_raw_by_id (db : DB) (field_id : String) : Option FieldRow :=
  db.fields.find? (fun r => r.field_id = field_id ∧ r.deleted = false)

/-- `get_oldp_field_id`: the `field_id` of the first non-deleted `OLDP`
field on the given item. -/
def get_oldp_field_id (db : DB) (item_id : String) : Option String :=
  (db.fields.find? (fun r => r.item_id = item_id ∧ r.field_type = "OLDP" ∧ r.deleted = false)).map
    (·.field_id)

/-- `update_field_value_only`: UPDATE the `value` column of the row keyed by
`(item_id, field_id)` (no timestamp bump, no deleted filter). -/
def update_field_value_only (db : DB) (item_id field_id : String)
    (value_encrypted : List Nat) : DB :=
  { db with fields := db.fields.map (fun r =>
      if r.item_id = item_id ∧ r.field_id = field_id then { r with value := value_encrypted }
      else r) }

/-- `update_item_name_only`: UPDATE the `name` column of the rows with the
given `item_id` (no timestamp bump). -/
def update_item_name_only (db : DB) (item_id : String) (name_encrypted : List Nat) : DB :=
  { db with items := db.items.map (fun r =>
      if r.item_id = item_id then { r with name := name_encrypted } else r) }

/-- `delete_field`: soft-delete the row keyed by `(item_id, field_id)`. -/
def delete_field_q (db : DB) (item_id field_id : String) : DB :=
  { db with fields := db.fields.map (fun r =>
      if r.item_id = item_id ∧ r.field_id = field_id then { r with deleted := true } else r) }

/-- `delete_item` (src/database/queries.rs): soft-delete the item row and
every still-active field row carrying that `item_id`. -/
def delete_item_q (db : DB) (item_id : String) : DB :=
  { db with
      items := db.items.map (fun r =>
        if r.item_id = item_id then { r with deleted := true } else r),
      fields := db.fields.map (fun r =>
        if r.item_id = item_id ∧ r.deleted = false then { r with deleted := true } else r) }

/-- The wallet error taxonomy (src/error.rs). -/
inductive WalletErr where
  | databaseNotFound (path : String)
  | invalidPassword
  | locked
  | encryptionError (msg : String)
  | decryptionError (msg : String)
  | databaseError (msg : String)
  | backupError (msg : String)
  | itemNotFound (id : String)
  | fieldNotFound (id : String)
  | labelNotFound (id : String)
  | invalidVersion (v : String)
  | ioError (msg : String)
  | invalidOperation (msg : String)
  | localizationError (msg : String)
deriving Repr, DecidableEq

/-- `undelete_item`: UPDATE ... WHERE `item_id` matches AND `deleted = 1`;
when zero rows match, the function fails with `ItemNotFound`. -/
def undelete_item_q (db : DB) (item_id : String) : Except WalletErr DB :=
  if (db.items.filter (fun r => r.item_id = item_id ∧ r.deleted = true)).length = 0 then
    .error (.itemNotFound item_id)
  else
    .ok { db with items := db.items.map (fun r =>
      if r.item_id = item_id ∧ r.deleted = true then
        { r with deleted := false, parent_id := some ROOT_ID }
      else r) }

/-- `undelete_field`: UPDATE ... WHERE the composite key matches AND
`deleted = 1`; when zero rows match, the function fails with
`FieldNotFound`. -/
def undelete_field_q (db : DB) (item_id field_id : String) : Except WalletErr DB :=
  if (db.fields.filter (fun r =>
      r.item_id = item_id ∧ r.field_id = field_id ∧ r.deleted = true)).length = 0 then
    .error (.fieldNotFound field_id)
  else
    .ok { db with fields := db.fields.map (fun r =>
      if r.item_id = item_id ∧ r.field_id = field_id ∧ r.deleted = true then
        { r with deleted := false }
      else r) }

/-! ## Business layer (src/business) -/

/-- Decrypted item view (`IWItem`, src/database/models.rs); the timestamp
fields are omitted, `name` holds the decrypted plaintext bytes. -/
structure IWItem where
  item_id : String
  parent_id : Option String
  name : List Nat
  icon : String
  folder : Bool
  deleted : Bool
deriving Repr, DecidableEq

/-- Decrypted field view (`IWField`); the label-join metadata
(`label`, `icon`, `value_type`) and the clock-dependent `expired`/`expiring`
flags are derived display data not used by any verified claim and are
omitted. -/
structure IWField where
  item_id : String
  field_id : String
  field_type : String
  value : List Nat
  sort_weight : Int
  deleted : Bool
deriving Repr, DecidableEq

/-- The wallet (src/business/wallet.rs): storage, the cached password, the
encryption count, and the decrypted caches. -/
structure WalletSt where
  db : DB
  password : Option (List Nat)
  encryption_count : Nat
  items_cache : Option (List IWItem)
  fields_cache : Option (List IWField)
deriving Repr, DecidableEq

/-- Business-level properties view (`IWProperties`). -/
structure IWProperties where
  database_id : String
  lang : String
  version : String
  encryption_count : Nat
deriving Repr, DecidableEq

/-- `Wallet::get_properties`: read the raw row and parse the encryption
count out of the legacy `email` column, defaulting to
`ENCRYPTION_COUNT_DEFAULT` when unparsable. -/
def wallet_get_properties (w : WalletSt) : Except WalletErr IWProperties :=
  match db_get_properties w.db with
  | none => .error (.databaseError "Properties not found")
  | some raw =>
    .ok ⟨raw.database_id, raw.lang, raw.version, (parseNat? raw.email).getD ENCRYPTION_COUNT_DEFAULT⟩

/-- The system-label table of `add_system_labels`
(src/business/labels.rs): `(field_type, name, value_type, icon)`. -/
def systemLabels : List (String × String × String × String) :=
  [("MAIL", "Email", "mail", "mail"),
   ("PASS", "Password", "pass", "pass"),
   ("NOTE", "Note", "text", "note"),
   ("LINK", "Link", "link", "link"),
   ("ACNT", "Account", "text", "account"),
   ("CARD", "Card", "text", "card"),
   ("NAME", "Name", "text", "name"),
   ("PHON", "Phone", "phon", "phone"),
   ("PINC", "PIN", "pass", "pin"),
   ("USER", "Username", "text", "user"),
   ("OLDP", "Old Password", "pass", "oldpass"),
   ("DATE", "Date", "date", "date"),
   ("TIME", "Time", "time", "time"),
   ("EXPD", "Expiry Date", "date", "expiry"),
   ("SNUM", "Serial Number", "text", "serial"),
   ("ADDR", "Address", "text", "address"),
   ("SQUE", "Secret Question", "text", "question"),
   ("SANS", "Secret Answer", "pass", "answer"),
   ("2FAC", "2FA", "pass", "2fa"),
   ("SEED", "Seed Phrase", "text", "seed")]

/-- `add_system_labels` (src/business/labels.rs): insert every system label
with `system = true`. -/
def add_system_labels (db : DB) : DB :=
  systemLabels.foldl (fun d l => (create_label d l.1 l.2.1 l.2.2.1 l.2.2.2 true).1) db

/-- `init_new_database` (src/business/wallet.rs): seed the properties row
(version `DB_VERSION`, encryption count 0), create the root item whose name
is the encryption of 32 random characters under count 0, and seed the
system labels.  The random `database_id` and root payload are parameters. -/
def init_new_database (P : CryptoPrims) (db : DB) (db_id lang : String)
    (password root_data : List Nat) : DB :=
  add_system_labels
    (create_item (set_properties db db_id lang DB_VERSION 0)
      ROOT_ID ROOT_PARENT_ID (encrypt P root_data password 0 none) "" true)

/-- `Wallet::create` at the database level: initialise a fresh store. -/
def create_wallet_db (P : CryptoPrims) (db_id lang : String)
    (password root_data : List Nat) : DB :=
  init_new_database P emptyDB db_id lang password root_data

/-- `ensure_unlocked` / password fetch, shared by the mutating operations. -/
def wallet_password (w : WalletSt) : Except WalletErr (List Nat) :=
  match w.password with
  | none => .error .locked
  | some pw => .ok pw

/-- `update_field` (src/business/fields.rs): a versioning operation.  Fetch
the old row by id; if it is a `PASS` field and the item has an active `OLDP`
sibling, copy the old row's *ciphertext* into that sibling; encrypt the new
value; soft-delete the old row; insert a fresh row with the new value, the
original type and the old (or caller-supplied) weight; return the fresh id
(passed in as `new_field_id`, standing for `generate_field_id()`). -/
def wallet_update_field (P : CryptoPrims) (w : WalletSt) (field_id : String)
    (value : List Nat) (sort_weight : Option Int) (new_field_id : String) :
    Except WalletErr (WalletSt × String) :=
  match w.password with
  | none => .error .locked
  | some pw =>
    match get_field_raw_by_id w.db field_id with
    | none => .error (.fieldNotFound field_id)
    | some old =>
      let db1 :=
        if old.field_type = "PASS" then
          match get_oldp_field_id w.db old.item_id with
          | some oldp_id => update_field_value_only w.db old.item_id oldp_id old.value
          | none => w.db
        else w.db
      let encrypted := encrypt P value pw w.encryption_count none
      let weight := sort_weight.getD (old.sort_weight.getD 0)
      let db2 := delete_field_q db1 old.item_id field_id
      let db3 := create_field db2 old.item_id new_field_id old.field_type encrypted weight
      .ok ({ w with db := db3, fields_cache := none }, new_field_id)

/-- `Wallet::create`: fresh database, password cached, encryption count 0,
caches empty. -/
def wallet_create (P : CryptoPrims) (db_id lang : String)
    (password root_data : List Nat) : WalletSt :=
  ⟨create_wallet_db P db_id lang password root_data, some password, 0, none, none⟩

theorem create_label_props (db : DB) (a b c d : String) (s : Bool) :
    (create_label db a b c d s).1.props = db.props := by
  rw [create_label]
  split <;> rfl

theorem add_system_labels_props (db : DB) : (add_system_labels db).props = db.props := by
  rw [add_system_labels]
  generalize systemLabels = ls
  induction ls generalizing db with
  | nil => rfl
  | cons l t ih => rw [List.foldl_cons, ih, create_label_props]

/-- C2: a fresh wallet's properties row carries the requested language, an
encryption count of 0, and — contrary to the claim — the version string
`DB_VERSION = "4"`, not the current schema version
`migrations::CURRENT_VERSION = "5"`: `Wallet::create` stamps `DB_VERSION`
although the content it seeds (including the `SEED` label of the v5
migration) is at version 5. -/
theorem fresh_wallet_version_is_four (P : CryptoPrims) (db_id lang : String)
    (password root_data : List Nat) :
    wallet_get_properties (wallet_create P db_id lang password root_data)
        = .ok ⟨db_id, lang, DB_VERSION, 0⟩ ∧
      DB_VERSION = "4" ∧ CURRENT_VERSION = "5" ∧ DB_VERSION ≠ CURRENT_VERSION := by
  refine ⟨?_, rfl, rfl, by decide⟩
  have hprops : (create_wallet_db P db_id lang password root_data).props
      = [⟨db_id, lang, DB_VERSION, natToString 0⟩] := by
    rw [create_wallet_db, init_new_database, add_system_labels_props]
    rfl
  have hget : db_get_properties (create_wallet_db P db_id lang password root_data)
      = some ⟨db_id, lang, DB_VERSION, natToString 0⟩ := by
    rw [db_get_properties, hprops]
    rfl
  have hparse : (parseNat? (natToString 0)).getD ENCRYPTION_COUNT_DEFAULT = 0 := by decide
  show wallet_get_properties ⟨create_wallet_db P db_id lang password root_data,
    some password, 0, none, none⟩ = _
  rw [wallet_get_properties]
  simp only [hget, hparse]

/-- C5: wallet creation seeds exactly the twenty system labels
MAIL PASS NOTE LINK ACNT CARD NAME PHON PINC USER OLDP DATE TIME EXPD SNUM
ADDR SQUE SANS 2FAC SEED, each marked as a system label. -/
theorem add_system_labels_on_empty (db : DB) (h : db.labels = []) :
    (add_system_labels db).labels
      = [⟨"MAIL", "Email", "mail", "mail", true, false⟩,
         ⟨"PASS", "Password", "pass", "pass", true, false⟩,
         ⟨"NOTE", "Note", "text", "note", true, false⟩,
         ⟨"LINK", "Link", "link", "link", true, false⟩,
         ⟨"ACNT", "Account", "text", "account", true, false⟩,
         ⟨"CARD", "Card", "text", "card", true, false⟩,
         ⟨"NAME", "Name", "text", "name", true, false⟩,
         ⟨"PHON", "Phone", "phon", "phone", true, false⟩,
         ⟨"PINC", "PIN", "pass", "pin", true, false⟩,
         ⟨"USER", "Username", "text", "user", true, false⟩,
         ⟨"OLDP", "Old Password", "pass", "oldpass", true, false⟩,
         ⟨"DATE", "Date", "date", "date", true, false⟩,
         ⟨"TIME", "Time", "time", "time", true, false⟩,
         ⟨"EXPD", "Expiry Date", "date", "expiry", true, false⟩,
         ⟨"SNUM", "Serial Number", "text", "serial", true, false⟩,
         ⟨"ADDR", "Address", "text", "address", true, false⟩,
         ⟨"SQUE", "Secret Question", "text", "question", true, false⟩,
         ⟨"SANS", "Secret Answer", "pass", "answer", true, false⟩,
         ⟨"2FAC", "2FA", "pass", "2fa", true, false⟩,
         ⟨"SEED", "Seed Phrase", "text", "seed", true, false⟩] := by
  rw [add_system_labels, systemLabels]
  simp only [List.foldl_cons, List.foldl_nil]
  simp [create_label, h]

/-- C5: wallet creation seeds exactly the twenty system labels
MAIL PASS NOTE LINK ACNT CARD NAME PHON PINC USER OLDP DATE TIME EXPD SNUM
ADDR SQUE SANS 2FAC SEED, each marked as a system label. -/
theorem create_seeds_twenty_system_labels (P : CryptoPrims) (db_id lang : String)
    (password root_data : List Nat) :
    (create_wallet_db P db_id lang password root_data).labels.map (fun l => l.field_type)
        = ["MAIL", "PASS", "NOTE", "LINK", "ACNT", "CARD", "NAME", "PHON", "PINC",
           "USER", "OLDP", "DATE", "TIME", "EXPD", "SNUM", "ADDR", "SQUE", "SANS",
           "2FAC", "SEED"] ∧
      (create_wallet_db P db_id lang password root_data).labels.length = 20 ∧
      ∀ l ∈ (create_wallet_db P db_id lang password root_data).labels, l.system = true := by
  have hlab := add_system_labels_on_empty
    (create_item (set_properties emptyDB db_id lang DB_VERSION 0) ROOT_ID ROOT_PARENT_ID
      (encrypt P root_data password 0 none) "" true) rfl
  rw [create_wallet_db, init_new_database, hlab]
  exact ⟨rfl, rfl, by decide⟩

deriving instance DecidableEq for Except

/-! ## C8: undelete on a non-deleted row (src/database/queries.rs) -/

/-- A store holding one active (non-deleted) item and one active field. -/
def sampleActiveDB : DB :=
  ⟨[], [⟨"AAAAAAAA", some ROOT_ID, [], "doc", false, false⟩],
   [⟨"AAAAAAAA", "FFFF", "MAIL", [], some 0, false⟩], []⟩

/-- C8 counterexample: undeleting an existing but non-deleted item (or
field) fails with `ItemNotFound` (respectively `FieldNotFound`), not with
the `InvalidOperation` kind the claim names. -/
theorem undelete_active_error_kind_counterexample :
    undelete_item_q sampleActiveDB "AAAAAAAA" = .error (.itemNotFound "AAAAAAAA") ∧
      undelete_field_q sampleActiveDB "AAAAAAAA" "FFFF" = .error (.fieldNotFound "FFFF") ∧
      (∀ msg, undelete_item_q sampleActiveDB "AAAAAAAA" ≠ .error (.invalidOperation msg)) ∧
      (∀ msg, undelete_field_q sampleActiveDB "AAAAAAAA" "FFFF"
        ≠ .error (.invalidOperation msg)) := by
  have h1 : undelete_item_q sampleActiveDB "AAAAAAAA"
      = .error (.itemNotFound "AAAAAAAA") := by decide
  have h2 : undelete_field_q sampleActiveDB "AAAAAAAA" "FFFF"
      = .error (.fieldNotFound "FFFF") := by decide
  refine ⟨h1, h2, ?_, ?_⟩
  · intro msg hcon
    rw [h1] at hcon
    simp at hcon
  · intro msg hcon
    rw [h2] at hcon
    simp at hcon

/-- C8 amended: when no soft-deleted row matches the given id — in
particular when the row exists but is active — `undelete_item` fails with
`ItemNotFound` and `undelete_field` fails with `FieldNotFound` (the zero-row
UPDATE branch), not with `InvalidOperation`. -/
theorem undelete_active_returns_notfound (db : DB) (item_id field_id : String)
    (hitem : ∀ r ∈ db.items, r.item_id = item_id → r.deleted = false)
    (hfield : ∀ r ∈ db.fields, r.item_id = item_id → r.field_id = field_id →
      r.deleted = false) :
    undelete_item_q db item_id = .error (.itemNotFound item_id) ∧
      undelete_field_q db item_id field_id = .error (.fieldNotFound field_id) := by
  constructor
  · rw [undelete_item_q, if_pos]
    rw [List.length_eq_zero, List.filter_eq_nil]
    intro r hr
    simp only [decide_eq_true_eq, not_and]
    intro hid
    simp [hitem r hr hid]
  · rw [undelete_field_q, if_pos]
    rw [List.length_eq_zero, List.filter_eq_nil]
    intro r hr
    simp only [decide_eq_true_eq, not_and]
    intro hid hfid
    simp [hfield r hr hid hfid]

/-- C8 witness: the amended statement applied to the concrete store holding
one active item and one active field. -/
theorem undelete_active_returns_notfound_witness :
    undelete_item_q sampleActiveDB "AAAAAAAA" = .error (.itemNotFound "AAAAAAAA") ∧
      undelete_field_q sampleActiveDB "AAAAAAAA" "FFFF" = .error (.fieldNotFound "FFFF") :=
  undelete_active_returns_notfound sampleActiveDB "AAAAAAAA" "FFFF"
    (by decide) (by decide)

/-! ## C9: auto-backup retention (src/backup/mod.rs) -/

/-- `BackupType` from src/backup/mod.rs. -/
inductive BackupType where
  | auto
  | manual
  | imported
deriving Repr, DecidableEq

/-- `BackupInfo`: the parsed directory listing entry (path, parsed
timestamp, classified type).  `list_backups` returns these sorted newest
first; the timestamp is modelled as an integer. -/
structure BackupInfo where
  path : String
  timestamp : Int
  backup_type : BackupType
deriving Repr, DecidableEq

/-- The auto backups of a listing, in listing order. -/
def backupAutos (backups : List BackupInfo) : List BackupInfo :=
  backups.filter (fun b => b.backup_type = BackupType.auto)

/-- `cleanup_auto_backups` (src/backup/mod.rs): filter the listing (newest
first) to auto backups; if at most `min_keep` exist, delete nothing;
otherwise delete those beyond the `min_keep` newest whose timestamp is
before the cutoff `now - max_age_days`.  The result is the list of deleted
paths (the `fs::remove_file` calls). -/
def cleanup_auto_backups (backups : List BackupInfo) (min_keep : Nat) (cutoff : Int) :
    List String :=
  if (backupAutos backups).length ≤ min_keep then []
  else (((backupAutos backups).drop min_keep).filter
    (fun b => b.timestamp < cutoff)).map (fun b => b.path)

/-- The directory contents after the deletions. -/
def backupRemaining (backups : List BackupInfo) (removed : List String) : List BackupInfo :=
  backups.filter (fun b => b.path ∉ removed)

/-- C9: `cleanup_auto_backups` deletes no manual or imported backup, leaves
at least `min(min_keep, #autos)` auto backups behind, and removes only auto
backups that lie beyond the `min_keep` newest and are older than the
cutoff. -/
theorem cleanup_auto_backups_spec (backups : List BackupInfo) (min_keep : Nat)
    (cutoff : Int) (hnodup : (backups.map (fun b => b.path)).Nodup) :
    (∀ b ∈ backups, b.backup_type ≠ BackupType.auto →
        b ∈ backupRemaining backups (cleanup_auto_backups backups min_keep cutoff)) ∧
      min min_keep (backupAutos backups).length ≤
        (backupAutos (backupRemaining backups
          (cleanup_auto_backups backups min_keep cutoff))).length ∧
      ∀ b ∈ backups, b.path ∈ cleanup_auto_backups backups min_keep cutoff →
        b ∈ (backupAutos backups).drop min_keep ∧ b.timestamp < cutoff := by
  have hinj : ∀ x ∈ backups, ∀ y ∈ backups, x.path = y.path → x = y :=
    List.inj_on_of_nodup_map hnodup
  by_cases hle : (backupAutos backups).length ≤ min_keep
  · rw [cleanup_auto_backups, if_pos hle]
    refine ⟨?_, ?_, ?_⟩
    · intro b hb _
      rw [backupRemaining]
      exact List.mem_filter.mpr ⟨hb, by simp⟩
    · have hall : backupRemaining backups [] = backups := by
        rw [backupRemaining]
        apply List.filter_eq_self.mpr
        intro b _
        simp
      rw [hall]
      exact Nat.min_le_right _ _
    · intro b _ hmem
      simp at hmem
  · rw [cleanup_auto_backups, if_neg hle]
    set removed := (((backupAutos backups).drop min_keep).filter
      (fun b => b.timestamp < cutoff)).map (fun b => b.path) with hremdef
    have hdropsub : ∀ c ∈ (backupAutos backups).drop min_keep, c ∈ backups := by
      intro c hc
      exact List.mem_of_mem_filter ((backupAutos backups).drop_subset min_keep hc)
    have hA : ∀ b ∈ backups, b.path ∈ removed →
        b ∈ (backupAutos backups).drop min_keep ∧ b.timestamp < cutoff := by
      intro b hb hmem
      rw [hremdef] at hmem
      rcases List.mem_map.mp hmem with ⟨c, hc, hcp⟩
      rcases List.mem_filter.mp hc with ⟨hcdrop, hcts⟩
      have hcb : c ∈ backups := hdropsub c hcdrop
      have hbc : b = c := hinj b hb c hcb hcp.symm
      subst hbc
      exact ⟨hcdrop, by simpa using hcts⟩
    refine ⟨?_, ?_, ?_⟩
    · intro b hb hbt
      rw [backupRemaining]
      refine List.mem_filter.mpr ⟨hb, ?_⟩
      simp only [decide_eq_true_eq]
      intro hcon
      have := (hA b hb hcon).1
      have hauto : b.backup_type = BackupType.auto := by
        have hmem : b ∈ backupAutos backups := (backupAutos backups).drop_subset min_keep this
        have := List.mem_filter.mp hmem
        simpa using this.2
      exact hbt hauto
    · have hbnodup : backups.Nodup := List.Nodup.of_map _ hnodup
      have hautonodup : (backupAutos backups).Nodup := List.Nodup.filter _ hbnodup
      have htakekeep : ∀ x ∈ (backupAutos backups).take min_keep, x.path ∉ removed := by
        intro x hxtake hxcon
        have hxautos : x ∈ backupAutos backups := List.take_subset _ _ hxtake
        have hxb : x ∈ backups := List.mem_of_mem_filter hxautos
        have hxdrop : x ∈ (backupAutos backups).drop min_keep := (hA x hxb hxcon).1
        exact (List.disjoint_take_drop hautonodup (Nat.le_refl min_keep)) hxtake hxdrop
      have hsub1 : List.Sublist ((backupAutos backups).take min_keep)
          ((backupAutos backups).filter (fun b => b.path ∉ removed)) := by
        have h1 : ((backupAutos backups).take min_keep).filter
            (fun b => b.path ∉ removed) = (backupAutos backups).take min_keep := by
          apply List.filter_eq_self.mpr
          intro b hb
          simpa using htakekeep b hb
        rw [← h1]
        exact List.Sublist.filter _ (List.take_sublist _ _)
      have heq : (backupAutos backups).filter (fun b => b.path ∉ removed)
          = backupAutos (backupRemaining backups removed) := by
        rw [backupAutos, backupRemaining, backupAutos, List.filter_filter,
          List.filter_filter]
        apply List.filter_congr
        intro b _
        rw [Bool.and_comm]
      have hlen : min min_keep (backupAutos backups).length
          = ((backupAutos backups).take min_keep).length := by
        rw [List.length_take]
      rw [hlen, ← heq]
      exact hsub1.length_le
    · exact hA

/-! ## Counting helpers for the update_field shape lemma -/

theorem countP_map_of_pres {α : Type} (l : List α) (f : α → α) (p : α → Bool)
    (h : ∀ x ∈ l, p (f x) = p x) : (l.map f).countP p = l.countP p := by
  induction l with
  | nil => rfl
  | cons a t ih =>
    rw [List.map_cons, List.countP_cons, List.countP_cons,
      h a (List.mem_cons_self a t), ih (fun x hx => h x (List.mem_cons_of_mem a hx))]

theorem countP_map_of_single {α : Type} (l : List α) (f : α → α) (p s : α → Bool)
    (hone : l.countP s = 1)
    (hs : ∀ x ∈ l, s x = true → p x = false ∧ p (f x) = true)
    (hns : ∀ x ∈ l, s x = false → p (f x) = p x) :
    (l.map f).countP p = l.countP p + 1 := by
  induction l with
  | nil => simp at hone
  | cons a t ih =>
    by_cases ha : s a = true
    · have hta : t.countP s = 0 := by
        rw [List.countP_cons] at hone
        simp only [ha, if_true] at hone
        omega
      have hnst : ∀ x ∈ t, s x = false := by
        intro x hx
        have := List.countP_eq_zero.mp hta x hx
        simpa using this
      have hpa := hs a (List.mem_cons_self a t) ha
      rw [List.map_cons, List.countP_cons, List.countP_cons, hpa.1, hpa.2,
        countP_map_of_pres t f p
          (fun x hx => hns x (List.mem_cons_of_mem a hx) (hnst x hx))]
      simp
    · have ha' : s a = false := by simpa using ha
      have hta : t.countP s = 1 := by
        rw [List.countP_cons, ha'] at hone
        simpa using hone
      rw [List.map_cons, List.countP_cons, List.countP_cons,
        hns a (List.mem_cons_self a t) ha',
        ih hta (fun x hx => hs x (List.mem_cons_of_mem a hx))
          (fun x hx => hns x (List.mem_cons_of_mem a hx))]
      omega

/-! ## The shape of update_field's effect on the fields table -/

/-- The row-level soft-delete applied by `delete_field` inside
`update_field`. -/
def markDeleted (item_id field_id : String) (r : FieldRow) : FieldRow :=
  if r.item_id = item_id ∧ r.field_id = field_id then { r with deleted := true } else r

/-- Shared shape lemma: `update_field`'s write sequence — an id-, type- and
deleted-preserving per-row transform `g` (the optional OLDP ciphertext
copy), the soft-delete of the old row, and the insert of the fresh row —
leaves exactly one active row under the fresh id, adds exactly the old row
(with its value and type) to the deleted pool, and preserves the previous
deleted pool. -/
theorem update_field_shape (fields : List FieldRow) (g : FieldRow → FieldRow)
    (old newRow : FieldRow) (field_id new_field_id : String)
    (hg1 : ∀ r, (g r).item_id = r.item_id ∧ (g r).field_id = r.field_id ∧
      (g r).deleted = r.deleted)
    (hg2 : ∀ r ∈ fields, r.deleted = true → g r = r)
    (hg3 : g old = old)
    (hmem : old ∈ fields) (hdel : old.deleted = false) (hfid : old.field_id = field_id)
    (huniq : ∀ x ∈ fields, x.item_id = old.item_id → x.field_id = field_id → x = old)
    (hcount : fields.countP
      (fun r => r.item_id = old.item_id ∧ r.field_id = field_id) = 1)
    (hfresh : ∀ r ∈ fields, r.field_id ≠ new_field_id)
    (hnewid : newRow.field_id = new_field_id) (hnewdel : newRow.deleted = false) :
    ((fields.map g).map (markDeleted old.item_id field_id) ++ [newRow]).filter
        (fun r => r.deleted = false ∧ r.field_id = new_field_id) = [newRow] ∧
      (((fields.map g).map (markDeleted old.item_id field_id) ++ [newRow]).filter
        (fun r => r.deleted = true)).length
        = (fields.filter (fun r => r.deleted = true)).length + 1 ∧
      { old with deleted := true }
        ∈ (fields.map g).map (markDeleted old.item_id field_id) ++ [newRow] ∧
      (∀ r ∈ fields, r.deleted = true →
        r ∈ (fields.map g).map (markDeleted old.item_id field_id) ++ [newRow]) ∧
      ∀ r ∈ (fields.map g).map (markDeleted old.item_id field_id) ++ [newRow],
        r.deleted = true → r = { old with deleted := true } ∨ r ∈ fields := by
  have hMids : ∀ r, (markDeleted old.item_id field_id (g r)).item_id = r.item_id ∧
      (markDeleted old.item_id field_id (g r)).field_id = r.field_id := by
    intro r
    rw [markDeleted]
    split
    · exact ⟨(hg1 r).1, (hg1 r).2.1⟩
    · exact ⟨(hg1 r).1, (hg1 r).2.1⟩
  have hmapmap : (fields.map g).map (markDeleted old.item_id field_id)
      = fields.map (fun r => markDeleted old.item_id field_id (g r)) := by
    rw [List.map_map]
    rfl
  set M := fun r => markDeleted old.item_id field_id (g r) with hMdef
  have hM_special : ∀ x ∈ fields,
      (decide (x.item_id = old.item_id ∧ x.field_id = field_id)) = true →
      x = old ∧ M x = { old with deleted := true } := by
    intro x hx hsx
    have hx' := decide_eq_true_eq.mp hsx
    have hxold : x = old := huniq x hx hx'.1 hx'.2
    subst hxold
    refine ⟨rfl, ?_⟩
    rw [hMdef]
    show markDeleted x.item_id field_id (g x) = { x with deleted := true }
    rw [hg3, markDeleted, if_pos ⟨rfl, hfid⟩]
  have hM_plain : ∀ x,
      (decide (x.item_id = old.item_id ∧ x.field_id = field_id)) = false →
      M x = g x := by
    intro x hsx
    have hx' := of_decide_eq_false hsx
    rw [hMdef]
    show markDeleted old.item_id field_id (g x) = g x
    rw [markDeleted, if_neg]
    intro hcon
    exact hx' ⟨((hg1 x).1) ▸ hcon.1, ((hg1 x).2.1) ▸ hcon.2⟩
  refine ⟨?_, ?_, ?_, ?_, ?_⟩
  · -- exactly one active row under the fresh id
    rw [List.filter_append, hmapmap]
    have h1 : (fields.map M).filter
        (fun r => r.deleted = false ∧ r.field_id = new_field_id) = [] := by
      apply List.filter_eq_nil.mpr
      intro r hr
      rcases List.mem_map.mp hr with ⟨x, hx, rfl⟩
      simp only [decide_eq_true_eq, not_and]
      intro _
      rw [(hMids x).2]
      exact hfresh x hx
    have h2 : [newRow].filter
        (fun r => r.deleted = false ∧ r.field_id = new_field_id) = [newRow] := by
      simp [hnewdel, hnewid]
    rw [h1, h2]
    rfl
  · -- the deleted pool grows by exactly one
    rw [List.filter_append, List.length_append, hmapmap]
    have h2 : [newRow].filter (fun r => r.deleted = true) = [] := by
      simp [hnewdel]
    rw [h2]
    simp only [List.length_nil, Nat.add_zero]
    rw [← List.countP_eq_length_filter, ← List.countP_eq_length_filter]
    apply countP_map_of_single fields M
      (fun r => r.deleted = true)
      (fun r => r.item_id = old.item_id ∧ r.field_id = field_id)
      hcount
    · intro x hx hsx
      obtain ⟨hxold, hMx⟩ := hM_special x hx hsx
      subst hxold
      constructor
      · simpa using hdel
      · rw [hMx]
        simp
    · intro x hx hsx
      rw [hM_plain x hsx]
      show decide ((g x).deleted = true) = decide (x.deleted = true)
      rw [(hg1 x).2.2]
  · -- the marked old row is present
    apply List.mem_append_left
    rw [hmapmap]
    have : M old = { old with deleted := true } := by
      rw [hMdef]
      show markDeleted old.item_id field_id (g old) = { old with deleted := true }
      rw [hg3, markDeleted, if_pos ⟨rfl, hfid⟩]
    rw [← this]
    exact List.mem_map_of_mem M hmem
  · -- previously deleted rows survive untouched
    intro r hr hrdel
    apply List.mem_append_left
    rw [hmapmap]
    have hsr : (decide (r.item_id = old.item_id ∧ r.field_id = field_id)) = false := by
      apply decide_eq_false
      intro hcon
      have := huniq r hr hcon.1 hcon.2
      subst this
      rw [hrdel] at hdel
      cases hdel
    have : M r = r := by
      rw [hM_plain r hsr, hg2 r hr hrdel]
    rw [← this]
    exact List.mem_map_of_mem M hr
  · -- no other new deleted rows
    intro r hr hrdel
    rcases List.mem_append.mp hr with hrm | hrnew
    · rw [hmapmap] at hrm
      rcases List.mem_map.mp hrm with ⟨x, hx, rfl⟩
      by_cases hsx : (decide (x.item_id = old.item_id ∧ x.field_id = field_id)) = true
      · left
        exact (hM_special x hx hsx).2
      · right
        have hsx' := eq_false_of_ne_true hsx
        by_cases hxdel : x.deleted = true
        · rw [hM_plain x hsx', hg2 x hx hxdel]
          exact hx
        · exfalso
          have : (M x).deleted = x.deleted := by
            rw [hM_plain x hsx']
            exact (hg1 x).2.2
          rw [hrdel] at this
          exact hxdel this.symm
    · exfalso
      rcases List.mem_singleton.mp hrnew with rfl
      rw [hrdel] at hnewdel
      cases hnewdel

/-! ## C3: update_field is a versioning operation -/

theorem get_field_raw_by_id_spec (db : DB) (fid : String) (old : FieldRow)
    (h : get_field_raw_by_id db fid = some old) :
    old ∈ db.fields ∧ old.field_id = fid ∧ old.deleted = false := by
  rw [get_field_raw_by_id] at h
  have hmem := List.mem_of_find?_eq_some h
  have hp := List.find?_some h
  simp only [decide_eq_true_eq] at hp
  exact ⟨hmem, hp.1, hp.2⟩

theorem get_oldp_field_id_spec (db : DB) (item_id oldp_id : String)
    (h : get_oldp_field_id db item_id = some oldp_id) :
    ∃ orow ∈ db.fields, orow.item_id = item_id ∧ orow.field_type = "OLDP" ∧
      orow.deleted = false ∧ orow.field_id = oldp_id := by
  rw [get_oldp_field_id] at h
  rcases Option.map_eq_some'.mp h with ⟨orow, hfind, hfid⟩
  have hmem := List.mem_of_find?_eq_some hfind
  have hp := List.find?_some hfind
  simp only [decide_eq_true_eq] at hp
  exact ⟨orow, hmem, hp.1, hp.2.1, hp.2.2, hfid⟩

theorem pk_unique (fields : List FieldRow)
    (hpk : (fields.map (fun r => (r.item_id, r.field_id))).Nodup) :
    ∀ x ∈ fields, ∀ y ∈ fields, x.item_id = y.item_id → x.field_id = y.field_id →
      x = y := by
  intro x hx y hy h1 h2
  exact List.inj_on_of_nodup_map hpk hx hy (by rw [h1, h2])

theorem countP_eq_one_of_unique {α : Type} (l : List α) (s : α → Bool) (a : α)
    (hmem : a ∈ l) (hsa : s a = true) (huniq : ∀ x ∈ l, s x = true → x = a)
    (hnodup : l.Nodup) : l.countP s = 1 := by
  induction l with
  | nil => cases hmem
  | cons b t ih =>
    rw [List.countP_cons]
    by_cases hab : b = a
    · have ht0 : t.countP s = 0 := by
        apply List.countP_eq_zero.mpr
        intro x hx hsx
        have hxa := huniq x (List.mem_cons_of_mem b hx) hsx
        have hbt : b ∉ t := (List.nodup_cons.mp hnodup).1
        rw [hxa, ← hab] at hx
        exact hbt hx
      have hsb : s b = true := by rw [hab]; exact hsa
      rw [ht0, hsb]
      simp
    · have hat : a ∈ t := by
        rcases List.mem_cons.mp hmem with h | h
        · exact absurd h.symm hab
        · exact h
      have hsb : s b = false := by
        by_contra hc
        have hsb' : s b = true := by simpa using hc
        exact hab (huniq b (List.mem_cons_self b t) hsb')
      rw [hsb]
      have hrec := ih hat (fun x hx hsx => huniq x (List.mem_cons_of_mem b hx) hsx)
        (List.nodup_cons.mp hnodup).2
      simp [hrec]

/-- Restatement of the shape lemma through an explicit equation for the
final fields table, so each branch of `update_field` can instantiate it. -/
theorem update_field_shape_of_eq (fields L : List FieldRow) (g : FieldRow → FieldRow)
    (old newRow : FieldRow) (field_id new_field_id : String)
    (hL : L = (fields.map g).map (markDeleted old.item_id field_id) ++ [newRow])
    (hg1 : ∀ r, (g r).item_id = r.item_id ∧ (g r).field_id = r.field_id ∧
      (g r).deleted = r.deleted)
    (hg2 : ∀ r ∈ fields, r.deleted = true → g r = r)
    (hg3 : g old = old)
    (hmem : old ∈ fields) (hdel : old.deleted = false) (hfid : old.field_id = field_id)
    (huniq : ∀ x ∈ fields, x.item_id = old.item_id → x.field_id = field_id → x = old)
    (hcount : fields.countP
      (fun r => r.item_id = old.item_id ∧ r.field_id = field_id) = 1)
    (hfresh : ∀ r ∈ fields, r.field_id ≠ new_field_id)
    (hnewid : newRow.field_id = new_field_id) (hnewdel : newRow.deleted = false) :
    L.filter (fun r => r.deleted = false ∧ r.field_id = new_field_id) = [newRow] ∧
      (L.filter (fun r => r.deleted = true)).length
        = (fields.filter (fun r => r.deleted = true)).length + 1 ∧
      { old with deleted := true } ∈ L ∧
      (∀ r ∈ fields, r.deleted = true → r ∈ L) ∧
      ∀ r ∈ L, r.deleted = true → r = { old with deleted := true } ∨ r ∈ fields := by
  subst hL
  exact update_field_shape fields g old newRow field_id new_field_id hg1 hg2 hg3
    hmem hdel hfid huniq hcount hfresh hnewid hnewdel

/-- C3: for an existing active field, `update_field` returns the fresh
field id, leaves exactly one new active row under that id — on the same
item, with the newly encrypted value, the original type and the old (or
caller-provided) sort weight — soft-deletes the old row, and grows the
deleted pool by exactly that old row with its prior value and type.  The
fresh id is the random `generate_field_id()` output, assumed unused. -/
theorem update_field_versioning (P : CryptoPrims) (w : WalletSt) (field_id : String)
    (value : List Nat) (sort_weight : Option Int) (new_field_id : String)
    (pw : List Nat) (old : FieldRow)
    (hpw : w.password = some pw)
    (hfound : get_field_raw_by_id w.db field_id = some old)
    (hpk : (w.db.fields.map (fun r => (r.item_id, r.field_id))).Nodup)
    (hfresh : ∀ r ∈ w.db.fields, r.field_id ≠ new_field_id) :
    ∃ w2, wallet_update_field P w field_id value sort_weight new_field_id
        = .ok (w2, new_field_id) ∧
      w2.db.fields.filter (fun r => r.deleted = false ∧ r.field_id = new_field_id)
        = [⟨old.item_id, new_field_id, old.field_type,
            encrypt P value pw w.encryption_count none,
            some (sort_weight.getD (old.sort_weight.getD 0)), false⟩] ∧
      (w2.db.fields.filter (fun r => r.deleted = true)).length
        = (w.db.fields.filter (fun r => r.deleted = true)).length + 1 ∧
      { old with deleted := true } ∈ w2.db.fields ∧
      (∀ r ∈ w.db.fields, r.deleted = true → r ∈ w2.db.fields) ∧
      ∀ r ∈ w2.db.fields, r.deleted = true →
        r = { old with deleted := true } ∨ r ∈ w.db.fields := by
  obtain ⟨hmem, hfid, hdel⟩ := get_field_raw_by_id_spec w.db field_id old hfound
  have hnodup : w.db.fields.Nodup := List.Nodup.of_map _ hpk
  have huniq : ∀ x ∈ w.db.fields, x.item_id = old.item_id → x.field_id = field_id →
      x = old := by
    intro x hx h1 h2
    exact pk_unique w.db.fields hpk x hx old hmem h1 (by rw [h2, hfid])
  have hcount : w.db.fields.countP
      (fun r => r.item_id = old.item_id ∧ r.field_id = field_id) = 1 := by
    apply countP_eq_one_of_unique w.db.fields _ old hmem
    · simp [hfid]
    · intro x hx hsx
      have hx' := decide_eq_true_eq.mp hsx
      exact huniq x hx hx'.1 hx'.2
    · exact hnodup
  simp only [wallet_update_field, hpw, hfound]
  by_cases hPASS : old.field_type = "PASS"
  · rw [if_pos hPASS]
    cases holdp : get_oldp_field_id w.db old.item_id with
    | some oldp_id =>
      obtain ⟨orow, horowmem, horowitem, horowtype, horowdel, horowfid⟩ :=
        get_oldp_field_id_spec w.db old.item_id oldp_id holdp
      have holdpne : oldp_id ≠ field_id := by
        intro hcon
        have horoweq : orow = old :=
          huniq orow horowmem horowitem (horowfid.trans hcon)
        rw [horoweq, hPASS] at horowtype
        exact absurd horowtype (by decide)
      have hg1 : ∀ r : FieldRow,
          ((if r.item_id = old.item_id ∧ r.field_id = oldp_id then
            { r with value := old.value } else r).item_id = r.item_id) ∧
          ((if r.item_id = old.item_id ∧ r.field_id = oldp_id then
            { r with value := old.value } else r).field_id = r.field_id) ∧
          ((if r.item_id = old.item_id ∧ r.field_id = oldp_id then
            { r with value := old.value } else r).deleted = r.deleted) := by
        intro r
        split <;> exact ⟨rfl, rfl, rfl⟩
      have hg2 : ∀ r ∈ w.db.fields, r.deleted = true →
          (if r.item_id = old.item_id ∧ r.field_id = oldp_id then
            { r with value := old.value } else r) = r := by
        intro r hr hrdel
        rw [if_neg]
        intro hcon
        have hreq : r = orow := pk_unique w.db.fields hpk r hr orow horowmem
          (hcon.1.trans horowitem.symm) (hcon.2.trans horowfid.symm)
        rw [hreq, horowdel] at hrdel
        simp at hrdel
      have hg3 : (if old.item_id = old.item_id ∧ old.field_id = oldp_id then
          { old with value := old.value } else old) = old := by
        rw [if_neg]
        intro hcon
        exact holdpne (by rw [← hcon.2, hfid])
      obtain ⟨c1, c2, c3, c4, c5⟩ := update_field_shape_of_eq w.db.fields
        ((w.db.fields.map (fun r =>
          if r.item_id = old.item_id ∧ r.field_id = oldp_id then
            { r with value := old.value } else r)).map
          (markDeleted old.item_id field_id) ++
          [⟨old.item_id, new_field_id, old.field_type,
            encrypt P value pw w.encryption_count none,
            some (sort_weight.getD (old.sort_weight.getD 0)), false⟩])
        (fun r => if r.item_id = old.item_id ∧ r.field_id = oldp_id then
          { r with value := old.value } else r)
        old
        ⟨old.item_id, new_field_id, old.field_type,
          encrypt P value pw w.encryption_count none,
          some (sort_weight.getD (old.sort_weight.getD 0)), false⟩
        field_id new_field_id rfl hg1 hg2 hg3 hmem hdel hfid huniq hcount hfresh
        rfl rfl
      exact ⟨_, rfl, c1, c2, c3, c4, c5⟩
    | none =>
      obtain ⟨c1, c2, c3, c4, c5⟩ := update_field_shape_of_eq w.db.fields
        ((w.db.fields.map (fun r => r)).map (markDeleted old.item_id field_id) ++
          [⟨old.item_id, new_field_id, old.field_type,
            encrypt P value pw w.encryption_count none,
            some (sort_weight.getD (old.sort_weight.getD 0)), false⟩])
        (fun r => r) old
        ⟨old.item_id, new_field_id, old.field_type,
          encrypt P value pw w.encryption_count none,
          some (sort_weight.getD (old.sort_weight.getD 0)), false⟩
        field_id new_field_id rfl (fun _ => ⟨rfl, rfl, rfl⟩) (fun _ _ _ => rfl) rfl
        hmem hdel hfid huniq hcount hfresh rfl rfl
      have hmapid : w.db.fields.map (fun r => r) = w.db.fields := List.map_id' _
      rw [hmapid] at c1 c2 c3 c4 c5
      exact ⟨_, rfl, c1, c2, c3, c4, c5⟩
  · rw [if_neg hPASS]
    obtain ⟨c1, c2, c3, c4, c5⟩ := update_field_shape_of_eq w.db.fields
      ((w.db.fields.map (fun r => r)).map (markDeleted old.item_id field_id) ++
        [⟨old.item_id, new_field_id, old.field_type,
          encrypt P value pw w.encryption_count none,
          some (sort_weight.getD (old.sort_weight.getD 0)), false⟩])
      (fun r => r) old
      ⟨old.item_id, new_field_id, old.field_type,
        encrypt P value pw w.encryption_count none,
        some (sort_weight.getD (old.sort_weight.getD 0)), false⟩
      field_id new_field_id rfl (fun _ => ⟨rfl, rfl, rfl⟩) (fun _ _ _ => rfl) rfl
      hmem hdel hfid huniq hcount hfresh rfl rfl
    have hmapid : w.db.fields.map (fun r => r) = w.db.fields := List.map_id' _
    rw [hmapid] at c1 c2 c3 c4 c5
    exact ⟨_, rfl, c1, c2, c3, c4, c5⟩

/-- A wallet holding one unlocked store with a single active LINK field,
used to witness the update_field claims. -/
def sampleUpdateWallet : WalletSt :=
  ⟨⟨[], [], [⟨"ITEM0001", "FFFF", "LINK", [1, 2], some 200, false⟩], []⟩,
   some [83], 0, none, none⟩

/-- C3 witness: the versioning law at the concrete one-field wallet. -/
theorem update_field_versioning_witness :
    ∃ w2, wallet_update_field idPrims sampleUpdateWallet "FFFF" [3] none "GGGG"
        = .ok (w2, "GGGG") ∧
      w2.db.fields.filter (fun r => r.deleted = false ∧ r.field_id = "GGGG")
        = [⟨"ITEM0001", "GGGG", "LINK", encrypt idPrims [3] [83] 0 none,
            some ((none : Option Int).getD ((some (200 : Int)).getD 0)), false⟩] ∧
      (w2.db.fields.filter (fun r => r.deleted = true)).length
        = (sampleUpdateWallet.db.fields.filter (fun r => r.deleted = true)).length + 1 ∧
      (⟨"ITEM0001", "FFFF", "LINK", [1, 2], some 200, true⟩ : FieldRow) ∈ w2.db.fields ∧
      (∀ r ∈ sampleUpdateWallet.db.fields, r.deleted = true → r ∈ w2.db.fields) ∧
      ∀ r ∈ w2.db.fields, r.deleted = true →
        r = (⟨"ITEM0001", "FFFF", "LINK", [1, 2], some 200, true⟩ : FieldRow)
          ∨ r ∈ sampleUpdateWallet.db.fields :=
  update_field_versioning idPrims sampleUpdateWallet "FFFF" [3] none "GGGG" [83]
    ⟨"ITEM0001", "FFFF", "LINK", [1, 2], some 200, false⟩
    rfl (by decide) (by decide) (by decide)

theorem markDeleted_ids (item_id field_id : String) (r : FieldRow) :
    (markDeleted item_id field_id r).item_id = r.item_id ∧
      (markDeleted item_id field_id r).field_id = r.field_id := by
  rw [markDeleted]
  split <;> exact ⟨rfl, rfl⟩

/-- C6: updating an active PASS field that has an active OLDP sibling on
the same item copies the stored ciphertext bytes of the old PASS row into
the OLDP row byte-for-byte (no decrypt/re-encrypt), so the OLDP row then
decrypts to exactly the pre-update PASS plaintext. -/
theorem update_pass_copies_ciphertext_to_oldp (P : CryptoPrims) (w : WalletSt)
    (field_id : String) (value : List Nat) (sort_weight : Option Int)
    (new_field_id : String) (pw : List Nat) (old : FieldRow) (oldp_id : String)
    (pw2 : List Nat) (cnt2 : Nat) (prior : List Nat)
    (hpw : w.password = some pw)
    (hfound : get_field_raw_by_id w.db field_id = some old)
    (hPASS : old.field_type = "PASS")
    (holdp : get_oldp_field_id w.db old.item_id = some oldp_id)
    (hpk : (w.db.fields.map (fun r => (r.item_id, r.field_id))).Nodup)
    (hfresh : ∀ r ∈ w.db.fields, r.field_id ≠ new_field_id)
    (hdec : decrypt P old.value pw2 cnt2 none = .ok prior) :
    ∃ w2, wallet_update_field P w field_id value sort_weight new_field_id
        = .ok (w2, new_field_id) ∧
      (∃ r ∈ w2.db.fields, r.item_id = old.item_id ∧ r.field_id = oldp_id ∧
        r.deleted = false ∧ r.value = old.value) ∧
      ∀ r ∈ w2.db.fields, r.item_id = old.item_id → r.field_id = oldp_id →
        r.value = old.value ∧ decrypt P r.value pw2 cnt2 none = .ok prior := by
  obtain ⟨hmem, hfid, hdel⟩ := get_field_raw_by_id_spec w.db field_id old hfound
  obtain ⟨orow, horowmem, horowitem, horowtype, horowdel, horowfid⟩ :=
    get_oldp_field_id_spec w.db old.item_id oldp_id holdp
  have huniq : ∀ x ∈ w.db.fields, x.item_id = old.item_id → x.field_id = field_id →
      x = old := by
    intro x hx h1 h2
    exact pk_unique w.db.fields hpk x hx old hmem h1 (by rw [h2, hfid])
  have holdpne : oldp_id ≠ field_id := by
    intro hcon
    have horoweq : orow = old := huniq orow horowmem horowitem (horowfid.trans hcon)
    rw [horoweq, hPASS] at horowtype
    exact absurd horowtype (by decide)
  have hnewne : oldp_id ≠ new_field_id := by
    rw [← horowfid]
    exact hfresh orow horowmem
  simp only [wallet_update_field, hpw, hfound]
  rw [if_pos hPASS, holdp]
  refine ⟨_, rfl, ?_, ?_⟩
  · -- the updated OLDP row is present, active, and carries old's ciphertext
    refine ⟨markDeleted old.item_id field_id
      (if orow.item_id = old.item_id ∧ orow.field_id = oldp_id then
        { orow with value := old.value } else orow), ?_, ?_⟩
    · apply List.mem_append_left
      exact List.mem_map_of_mem _ (List.mem_map_of_mem _ horowmem)
    · have hs1 : (if orow.item_id = old.item_id ∧ orow.field_id = oldp_id then
          { orow with value := old.value } else orow)
          = { orow with value := old.value } := if_pos ⟨horowitem, horowfid⟩
      have hs2 : markDeleted old.item_id field_id { orow with value := old.value }
          = { orow with value := old.value } := by
        rw [markDeleted]
        exact if_neg (fun hcon => holdpne (horowfid.symm.trans hcon.2))
      rw [hs1, hs2]
      exact ⟨horowitem, horowfid, horowdel, rfl⟩
  · -- every row keyed (item, oldp_id) carries old's ciphertext
    intro r hr h1 h2
    rcases List.mem_append.mp hr with hrm | hrnew
    · rcases List.mem_map.mp hrm with ⟨y, hy, rfl⟩
      rcases List.mem_map.mp hy with ⟨x, hx, rfl⟩
      have hyids := markDeleted_ids old.item_id field_id
        (if x.item_id = old.item_id ∧ x.field_id = oldp_id then
          { x with value := old.value } else x)
      have hxids : (if x.item_id = old.item_id ∧ x.field_id = oldp_id then
          { x with value := old.value } else x).item_id = x.item_id ∧
          (if x.item_id = old.item_id ∧ x.field_id = oldp_id then
          { x with value := old.value } else x).field_id = x.field_id := by
        split <;> exact ⟨rfl, rfl⟩
      have hxitem : x.item_id = old.item_id := by
        rw [← hxids.1, ← hyids.1]; exact h1
      have hxfid : x.field_id = oldp_id := by
        rw [← hxids.2, ← hyids.2]; exact h2
      have hxorow : x = orow := pk_unique w.db.fields hpk x hx orow horowmem
        (hxitem.trans horowitem.symm) (hxfid.trans horowfid.symm)
      have hs1 : (if x.item_id = old.item_id ∧ x.field_id = oldp_id then
          { x with value := old.value } else x)
          = { x with value := old.value } := if_pos ⟨hxitem, hxfid⟩
      have hcond : ¬(({ x with value := old.value } : FieldRow).item_id = old.item_id ∧
          ({ x with value := old.value } : FieldRow).field_id = field_id) :=
        fun hcon => holdpne (hxfid.symm.trans hcon.2)
      rw [hs1, if_neg hcond]
      exact ⟨rfl, hdec⟩
    · exfalso
      rcases List.mem_singleton.mp hrnew with rfl
      exact hnewne h2.symm

/-- A wallet holding an unlocked store with an active PASS field (whose
ciphertext is a concrete encryption of the plaintext 65) and an active
OLDP sibling on the same item. -/
def samplePassWallet : WalletSt :=
  ⟨⟨[], [],
    [⟨"ITEM0001", "FFFF", "PASS", encrypt idPrims [65] [83] 0 none, some 100, false⟩,
     ⟨"ITEM0001", "OODD", "OLDP", [], some 200, false⟩], []⟩,
   some [83], 0, none, none⟩

/-- C6 witness: the ciphertext-copy law at the concrete PASS/OLDP wallet. -/
theorem update_pass_copies_ciphertext_to_oldp_witness :
    ∃ w2, wallet_update_field idPrims samplePassWallet "FFFF" [66] none "GGGG"
        = .ok (w2, "GGGG") ∧
      (∃ r ∈ w2.db.fields, r.item_id = "ITEM0001" ∧ r.field_id = "OODD" ∧
        r.deleted = false ∧ r.value = encrypt idPrims [65] [83] 0 none) ∧
      ∀ r ∈ w2.db.fields, r.item_id = "ITEM0001" → r.field_id = "OODD" →
        r.value = encrypt idPrims [65] [83] 0 none ∧
          decrypt idPrims r.value [83] 0 none = .ok [65] :=
  update_pass_copies_ciphertext_to_oldp idPrims samplePassWallet "FFFF" [66] none
    "GGGG" [83] ⟨"ITEM0001", "FFFF", "PASS", encrypt idPrims [65] [83] 0 none,
      some 100, false⟩ "OODD" [83] 0 [65]
    rfl (by decide) rfl (by decide) (by decide) (by decide) (by decide)

/-- A backup directory listing, newest first: three autos (timestamps 30,
20, 10), one manual, one imported. -/
def sampleBackups : List BackupInfo :=
  [⟨"auto30", 30, BackupType.auto⟩, ⟨"man28", 28, BackupType.manual⟩,
   ⟨"auto20", 20, BackupType.auto⟩, ⟨"imp15", 15, BackupType.imported⟩,
   ⟨"auto10", 10, BackupType.auto⟩]

/-- C9 witness: the retention law at the concrete listing with
`min_keep = 1` and cutoff 25 (the two stale autos are removed, the newest
auto and both non-autos survive). -/
theorem cleanup_auto_backups_spec_witness :
    (sampleBackups.map (fun b => b.path)).Nodup ∧
    ((∀ b ∈ sampleBackups, b.backup_type ≠ BackupType.auto →
        b ∈ backupRemaining sampleBackups (cleanup_auto_backups sampleBackups 1 25)) ∧
      min 1 (backupAutos sampleBackups).length ≤
        (backupAutos (backupRemaining sampleBackups
          (cleanup_auto_backups sampleBackups 1 25))).length ∧
      ∀ b ∈ sampleBackups, b.path ∈ cleanup_auto_backups sampleBackups 1 25 →
        b ∈ (backupAutos sampleBackups).drop 1 ∧ b.timestamp < 25) :=
  ⟨by decide, cleanup_auto_backups_spec sampleBackups 1 25 (by decide)⟩

/-! ## C10 and C4: item deletion and password change (src/business) -/

/-- The decryption loop of `load_items_if_needed` (src/business/items.rs):
decrypt every raw item name, failing with `DecryptionError` on the first
undecryptable row. -/
def decryptItemsRows (P : CryptoPrims) (pw : List Nat) (cnt : Nat) :
    List ItemRow → Except WalletErr (List IWItem)
  | [] => .ok []
  | r :: rest =>
    match decrypt P r.name pw cnt none with
    | .error e => .error (.decryptionError e)
    | .ok name =>
      match decryptItemsRows P pw cnt rest with
      | .error e => .error e
      | .ok items => .ok (⟨r.item_id, r.parent_id, name, r.icon, r.folder, r.deleted⟩ :: items)

/-- `load_items_if_needed` (src/business/items.rs): a no-op when the cache
is populated; otherwise decrypt the active item rows
(`get_all_items_raw` selects `WHERE deleted = 0`) into the cache. -/
def load_items_if_needed (P : CryptoPrims) (w : WalletSt) : Except WalletErr WalletSt :=
  match w.items_cache with
  | some _ => .ok w
  | none =>
    match w.password with
    | none => .error .locked
    | some pw =>
      match decryptItemsRows P pw w.encryption_count
          (w.db.items.filter (fun r => r.deleted = false)) with
      | .error e => .error e
      | .ok items => .ok { w with items_cache := some items }

/-- The decryption loop of `load_fields_if_needed` (src/business/fields.rs);
the label-join display metadata is omitted as in `IWField`, the sort weight
defaults to 0 as in the source. -/
def decryptFieldsRows (P : CryptoPrims) (pw : List Nat) (cnt : Nat) :
    List FieldRow → Except WalletErr (List IWField)
  | [] => .ok []
  | r :: rest =>
    match decrypt P r.value pw cnt none with
    | .error e => .error (.decryptionError e)
    | .ok value =>
      match decryptFieldsRows P pw cnt rest with
      | .error e => .error e
      | .ok fields =>
        .ok (⟨r.item_id, r.field_id, r.field_type, value, r.sort_weight.getD 0, r.deleted⟩
          :: fields)

/-- `load_fields_if_needed` (src/business/fields.rs): a no-op when the cache
is populated; otherwise decrypt the active field rows into the cache. -/
def load_fields_if_needed (P : CryptoPrims) (w : WalletSt) : Except WalletErr WalletSt :=
  match w.fields_cache with
  | some _ => .ok w
  | none =>
    match w.password with
    | none => .error .locked
    | some pw =>
      match decryptFieldsRows P pw w.encryption_count
          (w.db.fields.filter (fun r => r.deleted = false)) with
      | .error e => .error e
      | .ok fields => .ok { w with fields_cache := some fields }

/-- `Wallet::get_item`: `get_items` (unlock check plus cache load), then a
linear search of the decrypted cache. -/
def wallet_get_item (P : CryptoPrims) (w : WalletSt) (item_id : String) :
    Except WalletErr (Option IWItem × WalletSt) :=
  match w.password with
  | none => .error .locked
  | some _ =>
    match load_items_if_needed P w with
    | .error e => .error e
    | .ok w1 => .ok ((w1.items_cache.getD []).find? (fun i => i.item_id = item_id), w1)

/-- One saturation pass per fuel unit of the recursive descendants CTE
(src/database/queries.rs `delete_item_descendants`): starting from the
seed ids, repeatedly add the items whose parent is already collected;
`activeOnly` reproduces the `deleted = 0` filter of the first statement. -/
def descClosure (items : List ItemRow) (activeOnly : Bool) : Nat → List String → List String
  | 0, ids => ids
  | fuel + 1, ids =>
    let next := (items.filter (fun r =>
      (!activeOnly || !r.deleted) &&
      (match r.parent_id with | some p => decide (p ∈ ids) | none => false) &&
      !(decide (r.item_id ∈ ids)))).map (fun r => r.item_id)
    match next with
    | [] => ids
    | _ => descClosure items activeOnly fuel (ids ++ next)

/-- `delete_item_descendants` (src/database/queries.rs): soft-delete every
active descendant item (the CTE over active rows) and every active field
whose item is any descendant (the CTE over all rows). -/
def delete_item_descendants_q (db : DB) (item_id : String) : DB :=
  let activeDesc := descClosure db.items true db.items.length
    ((db.items.filter (fun r => decide (r.parent_id = some item_id) && !r.deleted)).map
      (fun r => r.item_id))
  let allDesc := descClosure db.items false db.items.length
    ((db.items.filter (fun r => decide (r.parent_id = some item_id))).map
      (fun r => r.item_id))
  { db with
      items := db.items.map (fun r =>
        if r.item_id ∈ activeDesc then { r with deleted := true } else r),
      fields := db.fields.map (fun r =>
        if r.item_id ∈ allDesc ∧ r.deleted = false then { r with deleted := true } else r) }

/-- `Wallet::delete_item` (src/business/items.rs): unlock check; look the
item up in the decrypted cache; cascade to descendants when it is a folder
(a missing item counts as not a folder); soft-delete via the `delete_item`
query; clear both caches. -/
def wallet_delete_item (P : CryptoPrims) (w : WalletSt) (item_id : String) :
    Except WalletErr WalletSt :=
  match w.password with
  | none => .error .locked
  | some _ =>
    match wallet_get_item P w item_id with
    | .error e => .error e
    | .ok (it, w1) =>
      let is_folder := (it.map (fun i => i.folder)).getD false
      let db1 := if is_folder then delete_item_descendants_q w1.db item_id else w1.db
      .ok { w1 with
              db := delete_item_q db1 item_id,
              items_cache := none, fields_cache := none }

/-- An unlocked wallet whose items table is empty while the fields table
holds one active orphan row carrying the absent id `GHOSTID1`. -/
def sampleOrphanWallet : WalletSt :=
  ⟨⟨[], [], [⟨"GHOSTID1", "AAAA", "NOTE", [1], none, false⟩], []⟩,
   some [83], 0, none, none⟩

/-- C10 counterexample: `GHOSTID1` occurs in no item row, yet `delete_item`
returns Ok and changes the fields table: the orphan field row is
soft-deleted by the unconditional `UPDATE nswallet_fields ... WHERE
item_id = ?` of the `delete_item` query. -/
theorem delete_missing_item_counterexample :
    sampleOrphanWallet.db.items = [] ∧
    (⟨"GHOSTID1", "AAAA", "NOTE", [1], none, false⟩ : FieldRow)
        ∈ sampleOrphanWallet.db.fields ∧
    wallet_delete_item idPrims sampleOrphanWallet "GHOSTID1"
      = .ok ⟨⟨[], [], [⟨"GHOSTID1", "AAAA", "NOTE", [1], none, true⟩], []⟩,
          some [83], 0, none, none⟩ := by
  refine ⟨rfl, by decide, by decide⟩

/-- C10 (amended): deleting an id held by no item row returns Ok and leaves
both tables unchanged, provided additionally that no field row carries the
missing id (the cache-consistency hypothesis `hcm` mirrors that the cache
was loaded from the items table). -/
theorem delete_missing_item_noop (P : CryptoPrims) (w : WalletSt) (item_id : String)
    (pw : List Nat) (icache : List IWItem)
    (hpw : w.password = some pw)
    (hic : w.items_cache = some icache)
    (hcm : ∀ i ∈ icache, i.item_id ≠ item_id)
    (hmissing : ∀ r ∈ w.db.items, r.item_id ≠ item_id)
    (hnofield : ∀ r ∈ w.db.fields, r.item_id ≠ item_id) :
    ∃ w2, wallet_delete_item P w item_id = .ok w2 ∧
      w2.db.items = w.db.items ∧ w2.db.fields = w.db.fields := by
  have hfind : icache.find? (fun i => i.item_id = item_id) = none :=
    List.find?_eq_none.mpr (fun i hi => by simpa using hcm i hi)
  have hitems : w.db.items.map (fun r =>
      if r.item_id = item_id then { r with deleted := true } else r) = w.db.items := by
    trans (w.db.items.map id)
    · exact List.map_congr_left (fun r hr => if_neg (hmissing r hr))
    · exact List.map_id _
  have hfields : w.db.fields.map (fun r =>
      if r.item_id = item_id ∧ r.deleted = false then { r with deleted := true } else r)
      = w.db.fields := by
    trans (w.db.fields.map id)
    · exact List.map_congr_left (fun r hr => if_neg (fun hcon => hnofield r hr hcon.1))
    · exact List.map_id _
  refine ⟨{ w with
      db := delete_item_q w.db item_id,
      items_cache := none, fields_cache := none }, ?_, hitems, hfields⟩
  simp only [wallet_delete_item, wallet_get_item, load_items_if_needed, hpw, hic,
    Option.getD_some, hfind, Option.map_none', Option.getD_none, Bool.false_eq_true,
    if_false]

/-- An unlocked wallet with one root-level item, its one field, and the
item cache loaded; the id `MISSING1` occurs nowhere. -/
def sampleNoopWallet : WalletSt :=
  ⟨⟨[], [⟨"ITEM0001", some ROOT_ID, [7], "", false, false⟩],
    [⟨"ITEM0001", "AAAA", "NOTE", [1], none, false⟩], []⟩,
   some [83], 0, some [⟨"ITEM0001", some ROOT_ID, [7], "", false, false⟩], none⟩

/-- C10 witness: the no-op law at the concrete wallet and the absent id
`MISSING1`. -/
theorem delete_missing_item_noop_witness :
    sampleNoopWallet.password = some [83] ∧
    sampleNoopWallet.items_cache = some [⟨"ITEM0001", some ROOT_ID, [7], "", false, false⟩] ∧
    (∀ r ∈ sampleNoopWallet.db.items, r.item_id ≠ "MISSING1") ∧
    (∀ r ∈ sampleNoopWallet.db.fields, r.item_id ≠ "MISSING1") ∧
    ∃ w2, wallet_delete_item idPrims sampleNoopWallet "MISSING1" = .ok w2 ∧
      w2.db.items = sampleNoopWallet.db.items ∧
      w2.db.fields = sampleNoopWallet.db.fields :=
  ⟨rfl, rfl, by decide, by decide,
   delete_missing_item_noop idPrims sampleNoopWallet "MISSING1" [83]
     [⟨"ITEM0001", some ROOT_ID, [7], "", false, false⟩]
     rfl rfl (by decide) (by decide) (by decide)⟩

/-- The item re-encryption loop of `change_password`: encrypt each cached
name under the new password and write it back; the oracle `failAt` injects
a write failure at the given step index, modelling a mid-operation abort.
The step counter threads on so a single oracle covers both loops. -/
def reencryptItems (P : CryptoPrims) (newpw : List Nat) (cnt : Nat) (failAt : Nat → Bool) :
    List IWItem → Nat → DB → Except WalletErr (DB × Nat)
  | [], k, db => .ok (db, k)
  | i :: rest, k, db =>
    if failAt k then .error (.databaseError "write failed")
    else reencryptItems P newpw cnt failAt rest (k + 1)
      (update_item_name_only db i.item_id (encrypt P i.name newpw cnt none))

/-- The field re-encryption loop of `change_password`. -/
def reencryptFields (P : CryptoPrims) (newpw : List Nat) (cnt : Nat) (failAt : Nat → Bool) :
    List IWField → Nat → DB → Except WalletErr (DB × Nat)
  | [], k, db => .ok (db, k)
  | f :: rest, k, db =>
    if failAt k then .error (.databaseError "write failed")
    else reencryptFields P newpw cnt failAt rest (k + 1)
      (update_field_value_only db f.item_id f.field_id (encrypt P f.value newpw cnt none))

/-- `Wallet::change_password` (src/business/wallet.rs): unlock check, load
both caches, take them, re-encrypt all cached items then all cached fields
inside a transaction.  On success commit, swap in the new password and
clear the caches; on failure roll back (the pre-transaction `db` is kept,
modelling `rollback_transaction`), restore the old password and put the
taken caches back.  Returns the `Result<bool>` together with the final
wallet state. -/
def change_password (P : CryptoPrims) (w : WalletSt) (newpw : List Nat)
    (failAt : Nat → Bool) : Except WalletErr Bool × WalletSt :=
  match w.password with
  | none => (.error .locked, w)
  | some old_password =>
    match load_items_if_needed P w with
    | .error e => (.error e, w)
    | .ok w1 =>
      match load_fields_if_needed P w1 with
      | .error e => (.error e, w1)
      | .ok w2 =>
        let items := w2.items_cache.getD []
        let fields := w2.fields_cache.getD []
        let w3 : WalletSt := { w2 with items_cache := none, fields_cache := none }
        match reencryptItems P newpw w3.encryption_count failAt items 0 w3.db with
        | .error e =>
          (.error e, { w3 with
              password := some old_password,
              items_cache := some items, fields_cache := some fields })
        | .ok (db1, k) =>
          match reencryptFields P newpw w3.encryption_count failAt fields k db1 with
          | .error e =>
            (.error e, { w3 with
                password := some old_password,
                items_cache := some items, fields_cache := some fields })
          | .ok (db2, _) =>
            (.ok true, { w3 with db := db2, password := some newpw })

/-- C4: `change_password` is atomic.  With both caches loaded, whenever any
write fails the wallet comes back with the pre-call database, password and
caches, so every active row that decrypted under the old password still
does; on success the new password is swapped in and both caches are
cleared. -/
theorem change_password_atomic (P : CryptoPrims) (w : WalletSt) (newpw : List Nat)
    (failAt : Nat → Bool) (pw : List Nat) (icache : List IWItem) (fcache : List IWField)
    (hpw : w.password = some pw)
    (hic : w.items_cache = some icache)
    (hfc : w.fields_cache = some fcache)
    (hdecI : ∀ r ∈ w.db.items, r.deleted = false →
      ∃ v, decrypt P r.name pw w.encryption_count none = .ok v)
    (hdecF : ∀ r ∈ w.db.fields, r.deleted = false →
      ∃ v, decrypt P r.value pw w.encryption_count none = .ok v) :
    (∀ e w2, change_password P w newpw failAt = (.error e, w2) →
        w2.db = w.db ∧ w2.password = some pw ∧
        w2.items_cache = some icache ∧ w2.fields_cache = some fcache ∧
        (∀ r ∈ w2.db.items, r.deleted = false →
          ∃ v, decrypt P r.name pw w.encryption_count none = .ok v) ∧
        (∀ r ∈ w2.db.fields, r.deleted = false →
          ∃ v, decrypt P r.value pw w.encryption_count none = .ok v)) ∧
    (∀ w2, change_password P w newpw failAt = (.ok true, w2) →
        w2.password = some newpw ∧ w2.items_cache = none ∧ w2.fields_cache = none) := by
  constructor
  · intro e w2 heq
    simp only [change_password, load_items_if_needed, load_fields_if_needed, hpw, hic, hfc,
      Option.getD_some] at heq
    split at heq
    · injection heq with he hw
      subst hw
      exact ⟨rfl, rfl, rfl, rfl, hdecI, hdecF⟩
    · split at heq
      · injection heq with he hw
        subst hw
        exact ⟨rfl, rfl, rfl, rfl, hdecI, hdecF⟩
      · injection heq with he hw
        exact Except.noConfusion he
  · intro w2 heq
    simp only [change_password, load_items_if_needed, load_fields_if_needed, hpw, hic, hfc,
      Option.getD_some] at heq
    split at heq
    · injection heq with he hw
      exact Except.noConfusion he
    · split at heq
      · injection heq with he hw
        exact Except.noConfusion he
      · injection heq with he hw
        subst hw
        exact ⟨rfl, rfl, rfl⟩

/-- An unlocked wallet with one item and one field whose names decrypt
under the password `[83]` at count 0, and both caches loaded with the
corresponding plaintexts. -/
def sampleCpWallet : WalletSt :=
  ⟨⟨[], [⟨"ITEM0001", some ROOT_ID, encrypt idPrims [65] [83] 0 none, "", false, false⟩],
    [⟨"ITEM0001", "AAAA", "NOTE", encrypt idPrims [66] [83] 0 none, none, false⟩], []⟩,
   some [83], 0,
   some [⟨"ITEM0001", some ROOT_ID, [65], "", false, false⟩],
   some [⟨"ITEM0001", "AAAA", "NOTE", [66], 0, false⟩]⟩

/-- C4 witness: the atomicity law at the concrete one-item wallet with the
oracle that fails the very first write. -/
theorem change_password_atomic_witness :
    sampleCpWallet.password = some [83] ∧
    ((∀ e w2, change_password idPrims sampleCpWallet [84] (fun k => decide (k < 1))
        = (.error e, w2) →
        w2.db = sampleCpWallet.db ∧ w2.password = some [83] ∧
        w2.items_cache = some [⟨"ITEM0001", some ROOT_ID, [65], "", false, false⟩] ∧
        w2.fields_cache = some [⟨"ITEM0001", "AAAA", "NOTE", [66], 0, false⟩] ∧
        (∀ r ∈ w2.db.items, r.deleted = false →
          ∃ v, decrypt idPrims r.name [83] sampleCpWallet.encryption_count none = .ok v) ∧
        (∀ r ∈ w2.db.fields, r.deleted = false →
          ∃ v, decrypt idPrims r.value [83] sampleCpWallet.encryption_count none = .ok v)) ∧
      ∀ w2, change_password idPrims sampleCpWallet [84] (fun k => decide (k < 1))
          = (.ok true, w2) →
        w2.password = some [84] ∧ w2.items_cache = none ∧ w2.fields_cache = none) :=
  ⟨rfl, change_password_atomic idPrims sampleCpWallet [84] (fun k => decide (k < 1)) [83]
    [⟨"ITEM0001", some ROOT_ID, [65], "", false, false⟩]
    [⟨"ITEM0001", "AAAA", "NOTE", [66], 0, false⟩]
    rfl rfl rfl
    (by
      intro r hr hd
      have hre : r = ⟨"ITEM0001", some ROOT_ID,
          encrypt idPrims [65] [83] 0 none, "", false, false⟩ := by
        simpa [sampleCpWallet] using hr
      subst hre
      exact ⟨[65], by decide⟩)
    (by
      intro r hr hd
      have hre : r = ⟨"ITEM0001", "AAAA", "NOTE",
          encrypt idPrims [66] [83] 0 none, none, false⟩ := by
        simpa [sampleCpWallet] using hr
      subst hre
      exact ⟨[66], by decide⟩)⟩
